import Mathlib

/-! Contour resource store (`internal/dag/cache.go`) and debug exporter
(`internal/debug/dot.go`)

A shallow embedding of `KubernetesCache`, its `Insert`, `Remove` and `remove`
methods, and the Go map operations they rely on, followed by the walk of
`writeDot` with `writeVertex` and `writeEdge`.

* A Go `map[Meta]*T` is an optional finite map: `none` is the nil map, which
  may be read, measured and deleted from but not written to.
* A Go pointer `*T` handed to the cache is an `Option T`; `none` is the nil
  pointer, and reading a field through it is a run-time panic.
* A method returns `Option (Bool × KubernetesCache)`: `none` is a run-time
  panic, `some (b, kc)` the returned boolean and the cache afterwards.
-/

namespace Dag

/-- The constant `DEFAULT_INGRESS_CLASS`. -/
def DEFAULT_INGRESS_CLASS : String := "contour"

/-- Meta holds the name and namespace of a Kubernetes object. -/
structure Meta where
  name : String
  «namespace» : String
deriving DecidableEq, Repr

/-- The annotations of an object, Go type `map[string]string`. -/
abbrev AnnotationMap := List (String × String)

/-- The part of `metav1.ObjectMeta` the cache reads. -/
structure ObjectMeta where
  Name : String
  Namespace : String
  Annotations : AnnotationMap
deriving DecidableEq, Repr

/-- A `v1.Secret`: its metadata, and its remaining content, which the cache never reads. -/
structure Secret where
  ObjectMeta : ObjectMeta
  Data : String
deriving DecidableEq, Repr

/-- A `v1.Service`: its metadata, and its remaining content, which the cache never reads. -/
structure Service where
  ObjectMeta : ObjectMeta
  Spec : String
deriving DecidableEq, Repr

/-- A `v1beta1.Ingress`: its metadata, and its remaining content, which the cache never reads. -/
structure Ingress where
  ObjectMeta : ObjectMeta
  Spec : String
deriving DecidableEq, Repr

/-- An `ingressroutev1.IngressRoute`: its metadata, and its remaining content. -/
structure IngressRoute where
  ObjectMeta : ObjectMeta
  Spec : String
deriving DecidableEq, Repr

/-- An `ingressroutev1.TLSCertificateDelegation`: its metadata, and its remaining content. -/
structure TLSCertificateDelegation where
  ObjectMeta : ObjectMeta
  Spec : String
deriving DecidableEq, Repr

/-- The dynamic value of the `interface{}` argument of `Insert` and `Remove`: a pointer
(possibly nil) to one of the five resource types, a `cache.DeletedFinalStateUnknown`
value with its `Key` and `Obj` fields, or a value of any other dynamic type (the
untyped nil interface included). -/
inductive Object where
  | Secret (p : Option Secret)
  | Service (p : Option Service)
  | Ingress (p : Option Ingress)
  | IngressRoute (p : Option IngressRoute)
  | TLSCertificateDelegation (p : Option TLSCertificateDelegation)
  | DeletedFinalStateUnknown (Key : String) (Obj : Object)
  | Other (dynamicType : String)
deriving DecidableEq, Repr

/-- A Go `map[Meta]*V`; `none` is the nil map. -/
abbrev GoMap (V : Type) := Option (Finmap fun _ : Meta => V)

namespace GoMap

variable {V : Type}

/-- The Go expression `make(map[Meta]*V)`. -/
def make : GoMap V := some ∅

/-- The Go expression `v, ok := m[k]`: `some v` when `ok`, and nothing on a nil map. -/
def index (m : GoMap V) (k : Meta) : Option V :=
  m.bind (Finmap.lookup k)

/-- The Go statement `m[k] = v`, a panic on the nil map. -/
def set (m : GoMap V) (k : Meta) (v : V) : Option (GoMap V) :=
  m.map fun f => some (Finmap.insert k v f)

/-- The Go statement `delete(m, k)`, which does nothing on the nil map. -/
def delete (m : GoMap V) (k : Meta) : GoMap V :=
  m.map (Finmap.erase k)

/-- The Go expression `len(m)`, zero on the nil map. -/
def len (m : GoMap V) : Nat :=
  match m with
  | none => 0
  | some f => f.keys.card

/-- The number of entries of the map stored under the key `k`. -/
def count (m : GoMap V) (k : Meta) : Nat :=
  match m with
  | none => 0
  | some f => Multiset.card (f.entries.filter fun e => k = e.1)

end GoMap

/-- A KubernetesCache holds Kubernetes objects and associated configuration.
The embedded `sync.RWMutex` is left out: none of the methods below touches it. -/
structure KubernetesCache where
  IngressRouteRootNamespaces : List String
  IngressClass : String
  ingresses : GoMap Ingress
  ingressroutes : GoMap IngressRoute
  secrets : GoMap Secret
  delegations : GoMap TLSCertificateDelegation
  services : GoMap Service
deriving DecidableEq

/-- Modelled from the spec: the helper `stringOrDefault` is called by `ingressClass` but
its body is not among the sources; the store's class is described as falling back to the
default constant when unconfigured, and an unconfigured Go string is the empty string. -/
def stringOrDefault (s def_ : String) : String :=
  if s = "" then def_ else s

/-- The method `ingressClass` returns the IngressClass or DEFAULT_INGRESS_CLASS if not
configured. -/
def KubernetesCache.ingressClass (kc : KubernetesCache) : String :=
  stringOrDefault kc.IngressClass DEFAULT_INGRESS_CLASS

section Methods

/- The helper `getIngressClassAnnotation` is called by `Insert` but its body is not among
the sources. It is a parameter of the embedding: any function from an object's annotations
to its ingress-class string, the empty string standing for an absent annotation. -/
variable ( getIngressClassAnnotation : AnnotationMap → String)

/-- Insert inserts obj into the KubernetesCache. Insert returns true if the cache
accepted the object, or false if the value is not interesting to the cache. If an
object with a matching type, name, and namespace exists, it will be overwritten. -/
def KubernetesCache.Insert (kc : KubernetesCache) (obj : Object) :
    Option (Bool × KubernetesCache) :=
  match obj with
  | .Secret p => do
    let obj ← p
    let m : Meta := ⟨obj.ObjectMeta.Name, obj.ObjectMeta.Namespace⟩
    let secrets := if kc.secrets = none then GoMap.make else kc.secrets
    let secrets ← secrets.set m obj
    pure (true, { kc with secrets := secrets })
  | .Service p => do
    let obj ← p
    let m : Meta := ⟨obj.ObjectMeta.Name, obj.ObjectMeta.Namespace⟩
    let services := if kc.services = none then GoMap.make else kc.services
    let services ← services.set m obj
    pure (true, { kc with services := services })
  | .Ingress p => do
    let obj ← p
    let class_ := getIngressClassAnnotation obj.ObjectMeta.Annotations
    if class_ ≠ "" ∧ class_ ≠ kc.ingressClass then
      pure (false, kc)
    else
      let m : Meta := ⟨obj.ObjectMeta.Name, obj.ObjectMeta.Namespace⟩
      let ingresses := if kc.ingresses = none then GoMap.make else kc.ingresses
      let ingresses ← ingresses.set m obj
      pure (true, { kc with ingresses := ingresses })
  | .IngressRoute p => do
    let obj ← p
    let class_ := getIngressClassAnnotation obj.ObjectMeta.Annotations
    if class_ ≠ "" ∧ class_ ≠ kc.ingressClass then
      pure (false, kc)
    else
      let m : Meta := ⟨obj.ObjectMeta.Name, obj.ObjectMeta.Namespace⟩
      let ingressroutes := if kc.ingressroutes = none then GoMap.make else kc.ingressroutes
      let ingressroutes ← ingressroutes.set m obj
      pure (true, { kc with ingressroutes := ingressroutes })
  | .TLSCertificateDelegation p => do
    let obj ← p
    let m : Meta := ⟨obj.ObjectMeta.Name, obj.ObjectMeta.Namespace⟩
    let delegations := if kc.delegations = none then GoMap.make else kc.delegations
    let delegations ← delegations.set m obj
    pure (true, { kc with delegations := delegations })
  | _ =>
    -- not an interesting object
    pure (false, kc)

/-- The unexported method `remove`: the kind dispatch of `Remove` once a tombstone has
been unwrapped. -/
def KubernetesCache.remove (kc : KubernetesCache) (obj : Object) :
    Option (Bool × KubernetesCache) :=
  match obj with
  | .Secret p => do
    let obj ← p
    let m : Meta := ⟨obj.ObjectMeta.Name, obj.ObjectMeta.Namespace⟩
    let ok := (kc.secrets.index m).isSome
    pure (ok, { kc with secrets := kc.secrets.delete m })
  | .Service p => do
    let obj ← p
    let m : Meta := ⟨obj.ObjectMeta.Name, obj.ObjectMeta.Namespace⟩
    let ok := (kc.services.index m).isSome
    pure (ok, { kc with services := kc.services.delete m })
  | .Ingress p => do
    let obj ← p
    let m : Meta := ⟨obj.ObjectMeta.Name, obj.ObjectMeta.Namespace⟩
    let ok := (kc.ingresses.index m).isSome
    pure (ok, { kc with ingresses := kc.ingresses.delete m })
  | .IngressRoute p => do
    let obj ← p
    let m : Meta := ⟨obj.ObjectMeta.Name, obj.ObjectMeta.Namespace⟩
    let ok := (kc.ingressroutes.index m).isSome
    pure (ok, { kc with ingressroutes := kc.ingressroutes.delete m })
  | .TLSCertificateDelegation p => do
    let obj ← p
    let m : Meta := ⟨obj.ObjectMeta.Name, obj.ObjectMeta.Namespace⟩
    let ok := (kc.delegations.index m).isSome
    pure (ok, { kc with delegations := kc.delegations.delete m })
  | _ =>
    -- not interesting
    pure (false, kc)

/-- Remove removes obj from the KubernetesCache. Remove returns a boolean indicating if
the cache changed after the remove operation. -/
def KubernetesCache.Remove (kc : KubernetesCache) : Object → Option (Bool × KubernetesCache)
  | .DeletedFinalStateUnknown _ Obj => kc.Remove Obj
  | obj => kc.remove obj

end Methods

/-- A cache value as the zero value of the Go struct with its two configuration fields
set: every partition is the nil map. -/
def KubernetesCache.empty (ingressClass : String) (rootNamespaces : List String) :
    KubernetesCache :=
  ⟨rootNamespaces, ingressClass, none, none, none, none, none⟩

/-- The ingress-class lookup used in the concrete examples: the value stored under the
key `kubernetes.io/ingress.class`, the empty string when there is none. -/
def classOf (a : AnnotationMap) : String :=
  (a.lookup "kubernetes.io/ingress.class").getD ""

/-- The five resource kinds the cache keeps, one per partition. -/
inductive Kind where
  | Secret
  | Service
  | Ingress
  | IngressRoute
  | TLSCertificateDelegation
deriving DecidableEq, Repr

/-- The kind and the identity (name and namespace) of a non-nil pointer to one of the five
resource types; nothing for any other argument. -/
def Object.key? : Object → Option (Kind × Meta)
  | .Secret (some o) => some (.Secret, ⟨o.ObjectMeta.Name, o.ObjectMeta.Namespace⟩)
  | .Service (some o) => some (.Service, ⟨o.ObjectMeta.Name, o.ObjectMeta.Namespace⟩)
  | .Ingress (some o) => some (.Ingress, ⟨o.ObjectMeta.Name, o.ObjectMeta.Namespace⟩)
  | .IngressRoute (some o) => some (.IngressRoute, ⟨o.ObjectMeta.Name, o.ObjectMeta.Namespace⟩)
  | .TLSCertificateDelegation (some o) =>
    some (.TLSCertificateDelegation, ⟨o.ObjectMeta.Name, o.ObjectMeta.Namespace⟩)
  | _ => none

/-- Whether the dynamic type of the argument is one of the five pointer types the type
switches of `Insert` and `remove` list. -/
def Object.recognised : Object → Bool
  | .Secret _ => true
  | .Service _ => true
  | .Ingress _ => true
  | .IngressRoute _ => true
  | .TLSCertificateDelegation _ => true
  | _ => false

/-- Whether the argument is a `cache.DeletedFinalStateUnknown` value. -/
def Object.isTombstone : Object → Bool
  | .DeletedFinalStateUnknown _ _ => true
  | _ => false

/-- Whether the argument is a nil pointer of one of the five pointer types. -/
def Object.isNilPointer : Object → Bool
  | .Secret none => true
  | .Service none => true
  | .Ingress none => true
  | .IngressRoute none => true
  | .TLSCertificateDelegation none => true
  | _ => false

/-- The value left once every enclosing `cache.DeletedFinalStateUnknown` is taken off. -/
def Object.unwrap : Object → Object
  | .DeletedFinalStateUnknown _ Obj => Obj.unwrap
  | o => o

/-- The entry a partition holds under an identity, as the pointer that was stored. -/
def KubernetesCache.entry (kc : KubernetesCache) : Kind → Meta → Option Object
  | .Secret, m => (kc.secrets.index m).map fun o => .Secret (some o)
  | .Service, m => (kc.services.index m).map fun o => .Service (some o)
  | .Ingress, m => (kc.ingresses.index m).map fun o => .Ingress (some o)
  | .IngressRoute, m => (kc.ingressroutes.index m).map fun o => .IngressRoute (some o)
  | .TLSCertificateDelegation, m =>
    (kc.delegations.index m).map fun o => .TLSCertificateDelegation (some o)

/-- The number of entries a partition holds under an identity. -/
def KubernetesCache.count (kc : KubernetesCache) : Kind → Meta → Nat
  | .Secret, m => kc.secrets.count m
  | .Service, m => kc.services.count m
  | .Ingress, m => kc.ingresses.count m
  | .IngressRoute, m => kc.ingressroutes.count m
  | .TLSCertificateDelegation, m => kc.delegations.count m

/-- The size of a partition, `len` of its map. -/
def KubernetesCache.len (kc : KubernetesCache) : Kind → Nat
  | .Secret => kc.secrets.len
  | .Service => kc.services.len
  | .Ingress => kc.ingresses.len
  | .IngressRoute => kc.ingressroutes.len
  | .TLSCertificateDelegation => kc.delegations.len

/-- One call made on the cache by its client. -/
inductive Call where
  | Insert (obj : Object)
  | Remove (obj : Object)
deriving DecidableEq, Repr

/-- Whether a call dereferences a nil pointer: `Insert` reads the fields of its argument,
`Remove` those of its argument with the tombstones taken off. -/
def Call.panics : Call → Bool
  | .Insert obj => obj.isNilPointer
  | .Remove obj => obj.unwrap.isNilPointer

/-- The effect of one call. -/
def KubernetesCache.call ( getIngressClassAnnotation : AnnotationMap → String)
    (kc : KubernetesCache) : Call → Option (Bool × KubernetesCache)
  | .Insert obj => kc.Insert getIngressClassAnnotation obj
  | .Remove obj => kc.Remove obj

/-- The effect of a sequence of calls, made one after the other: each call with the
boolean it returned, oldest first, and the cache at the end. A panic ends the history. -/
def KubernetesCache.history ( getIngressClassAnnotation : AnnotationMap → String) :
    KubernetesCache → List Call → Option (List (Call × Bool) × KubernetesCache)
  | kc, [] => some ([], kc)
  | kc, c :: cs =>
    (kc.call getIngressClassAnnotation c).bind fun r =>
      (history getIngressClassAnnotation r.2 cs).map fun t => ((c, r.1) :: t.1, t.2)

/-- The entry the last-write-wins rule prescribes for kind `k` and identity `i`, read off
a log of calls and their returned booleans given most recent first: the object of the most
recent accepted `Insert` of that kind and identity when no `Remove` of that kind and
identity came after it, and nothing otherwise. -/
def lastWrite (k : Kind) (i : Meta) : List (Call × Bool) → Option Object
  | [] => none
  | (.Insert obj, accepted) :: earlier =>
    if accepted = true ∧ obj.key? = some (k, i) then some obj else lastWrite k i earlier
  | (.Remove obj, _) :: earlier =>
    if obj.unwrap.key? = some (k, i) then none else lastWrite k i earlier

/-- The result of `n + 1` consecutive calls `Insert(obj)`: the boolean of the last call
and the cache after it. -/
def KubernetesCache.InsertRepeated ( getIngressClassAnnotation : AnnotationMap → String)
    (kc : KubernetesCache) (obj : Object) : Nat → Option (Bool × KubernetesCache)
  | 0 => kc.Insert getIngressClassAnnotation obj
  | n + 1 =>
    (InsertRepeated getIngressClassAnnotation kc obj n).bind fun r =>
      r.2.Insert getIngressClassAnnotation obj

/-- The ingress-class string `Insert` reads off an HTTP-ingress or ingress-route object;
nothing for any other argument, whose annotations `Insert` does not read. -/
def Object.ingressClassOf? ( getIngressClassAnnotation : AnnotationMap → String) :
    Object → Option String
  | .Ingress (some o) => some ( getIngressClassAnnotation o.ObjectMeta.Annotations)
  | .IngressRoute (some o) => some ( getIngressClassAnnotation o.ObjectMeta.Annotations)
  | _ => none

/-- An example annotation map naming the ingress class `cls`. -/
def annotatedClass (cls : String) : AnnotationMap :=
  [("kubernetes.io/ingress.class", cls)]

end Dag

/-! The debug exporter (`internal/debug/dot.go`): the walk of `writeDot` over the graph. -/

namespace Debug

/-- The identity of a `dag.Vertex`: vertices are pointers, and a number stands for the
address. -/
abbrev Vertex := Nat

/-- The ten vertex types the type switch of `writeVertex` lists. -/
inductive VertexKind where
  | Listener
  | Secret
  | HTTPService
  | VirtualHost
  | SecureVirtualHost
  | PrefixRoute
  | RegexRoute
  | TCPService
  | TCPProxy
  | Cluster
deriving DecidableEq, Repr

/-- What the exporter sees of the graph `builder.Build()` returns. The `dag` package is
not among the sources, so the graph is a parameter: the vertices the `Visit` method of the
graph yields, in order (`roots`), the vertices the `Visit` method of each vertex yields,
in order (`Visit`), and the dynamic type of each vertex (`kind`). -/
structure DAG where
  roots : List Vertex
  Visit : Vertex → List Vertex
  kind : Vertex → VertexKind

/-- The struct `pair`, the key of the edge map. -/
structure pair where
  a : Vertex
  b : Vertex
deriving DecidableEq, Repr

/-- One `Fprintf`/`Fprintln` of the exporter: the opening line, the record of a vertex
(its address and the shape its type selects; the label text is left out), an arrow from a
parent to a child, and the closing line. -/
inductive Line where
  | header
  | node (v : Vertex) (kind : VertexKind)
  | edge (parent child : Vertex)
  | footer
deriving DecidableEq, Repr

/-- The struct `ctx`: the writer, as the lines written so far, and the two maps, as the
sets of their keys (a key is only ever mapped to `true`). -/
structure ctx where
  w : List Line
  nodes : Finset Vertex
  edges : Finset pair

/-- The method `writeVertex`. -/
def ctx.writeVertex (d : DAG) (c : ctx) (v : Vertex) : ctx :=
  if v ∈ c.nodes then c
  else { c with nodes := insert v c.nodes, w := c.w ++ [Line.node v (d.kind v)] }

/-- The method `writeEdge`. -/
def ctx.writeEdge (c : ctx) (parent child : Vertex) : ctx :=
  if pair.mk parent child ∈ c.edges then c
  else { c with edges := insert (pair.mk parent child) c.edges,
                w := c.w ++ [Line.edge parent child] }

/-- What the closure `visit` does, recorded as it runs: an invocation of `visit` on a
vertex, with the vertex whose callback made it (none for the graph itself), and a call of
`writeEdge`. -/
inductive Event where
  | visit (caller : Option Vertex) (v : Vertex)
  | edge (parent child : Vertex)
deriving DecidableEq, Repr

/-- The state of a walk: the `ctx` of the source, and the record of what the closure did. -/
structure Walk where
  c : ctx
  log : List Event

/-- The closure `visit` of `writeDot`: it writes the vertex, then has the vertex's `Visit`
call back on each child, and the callback visits the child and writes the edge. The first
argument bounds the depth of the recursion; the walk is undefined when it is used up. -/
def visit (d : DAG) : Nat → Option Vertex → Walk → Vertex → Option Walk
  | 0, _, _, _ => none
  | fuel + 1, caller, s, parent =>
    (d.Visit parent).foldlM
      (fun s child =>
        (visit d fuel (some parent) s child).map fun s =>
          ⟨s.c.writeEdge parent child, s.log ++ [Event.edge parent child]⟩)
      ⟨s.c.writeVertex d parent, s.log ++ [Event.visit caller parent]⟩

/-- The method `writeDot`, on the graph `d` that `builder.Build()` returned. -/
def writeDot (d : DAG) (fuel : Nat) : Option Walk :=
  (d.roots.foldlM (fun s root => visit d fuel none s root) ⟨⟨[Line.header], ∅, ∅⟩, []⟩).map
    fun s => ⟨{ s.c with w := s.c.w ++ [Line.footer] }, s.log⟩

/-- A layering of the graph: a number for each vertex that is smaller for every child than
for its parent. A finite graph has one exactly when it has no cycle. -/
def Acyclic (d : DAG) : Prop :=
  ∃ layer : Vertex → Nat, ∀ p c, c ∈ d.Visit p → layer c < layer p

/-- The vertex `v` is `p` or is reached from `p` through children. -/
inductive Reach (d : DAG) : Vertex → Vertex → Prop where
  | refl (p : Vertex) : Reach d p p
  | step (p c v : Vertex) : c ∈ d.Visit p → Reach d c v → Reach d p v

/-- The vertex `v` is reached from one of the roots. -/
def Reachable (d : DAG) (v : Vertex) : Prop :=
  ∃ r, r ∈ d.roots ∧ Reach d r v

/-- The distinct elements of a list, each at the place of its first occurrence. -/
def firstOccurrences : List Vertex → List Vertex
  | [] => []
  | x :: xs => x :: (firstOccurrences xs).filter (fun y => y ≠ x)

/-- The vertices on which `visit` was invoked, in order, one for each invocation. -/
def visits : List Event → List Vertex
  | [] => []
  | .visit _ v :: es => v :: visits es
  | .edge _ _ :: es => visits es

/-- The vertices `visit` was invoked on from the callback of `p`, in order. -/
def descents (p : Vertex) : List Event → List Vertex
  | [] => []
  | .visit caller v :: es => if caller = some p then v :: descents p es else descents p es
  | .edge _ _ :: es => descents p es

/-- The calls the children loop of `visit` makes on the children `cs` of `parent`, when
`f` gives the calls of a visit of one child. -/
def eventsOfChildren (f : Vertex → Option (List Event)) (parent : Vertex) :
    List Vertex → Option (List Event)
  | [] => some []
  | c :: cs =>
    (f c).bind fun E => (eventsOfChildren f parent cs).map fun R =>
      E ++ Event.edge parent c :: R

/-- The calls a visit of `p` makes, whatever the state it starts from. -/
def events (d : DAG) : Nat → Option Vertex → Vertex → Option (List Event)
  | 0, _, _ => none
  | fuel + 1, caller, p =>
    (eventsOfChildren (events d fuel (some p)) p (d.Visit p)).map fun R =>
      Event.visit caller p :: R

/-- The calls the walk of the roots `rs` makes. -/
def eventsOfRoots (d : DAG) (fuel : Nat) : List Vertex → Option (List Event)
  | [] => some []
  | r :: rs =>
    (events d fuel none r).bind fun E => (eventsOfRoots d fuel rs).map fun R => E ++ R

/-- The effect of a recorded call on the `ctx`. -/
def ctx.step (d : DAG) (c : ctx) : Event → ctx
  | .visit _ v => c.writeVertex d v
  | .edge p ch => c.writeEdge p ch

/-- The line a recorded call writes, when it writes one. -/
def Event.line (d : DAG) : Event → Line
  | .visit _ v => Line.node v (d.kind v)
  | .edge p ch => Line.edge p ch

/-- Appending a line unless it is there already. -/
def appendNew (w : List Line) (l : Line) : List Line :=
  if l ∈ w then w else w ++ [l]

/-- The vertices `writeEdge` was called on with the parent `p`, in order. -/
def edgesFrom (p : Vertex) : List Event → List Vertex
  | [] => []
  | .visit _ _ :: es => edgesFrom p es
  | .edge a b :: es => if a = p then b :: edgesFrom p es else edgesFrom p es

/-- The list `xs` repeated `n` times. -/
def copies : Nat → List Vertex → List Vertex
  | 0, _ => []
  | n + 1, xs => xs ++ copies n xs

/-- Whether a line is an arrow out of the vertex `p`. -/
def Line.isEdgeFrom (p : Vertex) : Line → Bool
  | .edge a _ => decide (a = p)
  | _ => false

/-- Whether a line is an arrow into the vertex `c`. -/
def Line.isEdgeInto (c : Vertex) : Line → Bool
  | .edge _ b => decide (b = c)
  | _ => false

/-- The two maps of a `ctx` hold the vertices and the edges whose lines were written. -/
def ctx.Inv (d : DAG) (c : ctx) : Prop :=
  (∀ v, v ∈ c.nodes ↔ Line.node v (d.kind v) ∈ c.w) ∧
    (∀ p ch, pair.mk p ch ∈ c.edges ↔ Line.edge p ch ∈ c.w)

/-- The graph of the example: a listener, a virtual host, two prefix routes that forward
to the same cluster, and the service of the cluster. -/
def sharedCluster : DAG where
  roots := [0]
  Visit := fun v =>
    match v with
    | 0 => [1]
    | 1 => [2, 3]
    | 2 => [4]
    | 3 => [4]
    | 4 => [5]
    | _ => []
  kind := fun v =>
    match v with
    | 0 => .Listener
    | 1 => .VirtualHost
    | 2 => .PrefixRoute
    | 3 => .PrefixRoute
    | 4 => .Cluster
    | _ => .HTTPService

/-- A graph with a cycle: a single vertex that is its own child. -/
def selfLoop : DAG where
  roots := [0]
  Visit := fun _ => [0]
  kind := fun _ => .Cluster

end Debug

namespace Dag

/-! ## Go map facts -/

namespace GoMap
variable {V : Type}

theorem set_lazy [DecidableEq V] (m : GoMap V) (k : Meta) (v : V) :
    (if m = none then make else m).set k v = some (some (Finmap.insert k v (m.getD ∅))) := by
  cases m <;> simp [set, make]

theorem index_some_insert (f : Finmap fun _ : Meta => V) (k : Meta) (v : V) :
    index (some (Finmap.insert k v f)) k = some v := by
  simp [index]

theorem index_some_insert_ne (f : Finmap fun _ : Meta => V) (k k' : Meta) (v : V)
    (h : k' ≠ k) : index (some (Finmap.insert k v f)) k' = index (some f) k' := by
  simp [index, Finmap.lookup_insert_of_ne _ h]

theorem index_getD (m : GoMap V) (k : Meta) : index (some (m.getD ∅)) k = index m k := by
  cases m <;> simp [index]

theorem index_delete_self (m : GoMap V) (k : Meta) : (m.delete k).index k = none := by
  cases m <;> simp [index, delete]

theorem index_delete_ne (m : GoMap V) (k k' : Meta) (h : k' ≠ k) :
    (m.delete k).index k' = m.index k' := by
  cases m <;> simp [index, delete, Finmap.lookup_erase_ne h]

theorem delete_eq_self (m : GoMap V) (k : Meta) (h : m.index k = none) : m.delete k = m := by
  cases m with
  | none => rfl
  | some f =>
    simp only [delete, Option.map_some']
    congr 1
    apply Finmap.ext_lookup
    intro x
    by_cases hx : x = k
    · subst hx
      simpa [index] using h.symm
    · exact Finmap.lookup_erase_ne hx

theorem count_le_one (m : GoMap V) (k : Meta) : m.count k ≤ 1 := by
  cases m with
  | none => simp [count]
  | some f =>
    have h := Multiset.nodup_iff_count_le_one.mp (Multiset.nodup_keys.mpr f.nodupKeys) k
    simpa [count, Multiset.keys, Multiset.count_map] using h

theorem count_eq_one (m : GoMap V) (k : Meta) (v : V) (h : m.index k = some v) :
    m.count k = 1 := by
  cases m with
  | none => simp [index] at h
  | some f =>
    have hle := count_le_one (some f) k
    have hmem : k ∈ f := Finmap.mem_of_lookup_eq_some (by simpa [index] using h)
    have hpos : 0 < Multiset.count k f.entries.keys :=
      Multiset.count_pos.mpr (Finmap.mem_def.mp hmem)
    have : 0 < count (some f) k := by
      simpa [count, Multiset.keys, Multiset.count_map] using hpos
    omega

end GoMap

/-! ## The methods, case by case -/

section Equations

variable (g : AnnotationMap → String) (kc : KubernetesCache)

theorem Insert_Secret (o : Secret) :
    kc.Insert g (.Secret (some o)) = some (true, { kc with
      secrets := some (Finmap.insert ⟨o.ObjectMeta.Name, o.ObjectMeta.Namespace⟩ o
        (kc.secrets.getD ∅)) }) := by
  simp [KubernetesCache.Insert, GoMap.set_lazy]

theorem Insert_Service (o : Service) :
    kc.Insert g (.Service (some o)) = some (true, { kc with
      services := some (Finmap.insert ⟨o.ObjectMeta.Name, o.ObjectMeta.Namespace⟩ o
        (kc.services.getD ∅)) }) := by
  simp [KubernetesCache.Insert, GoMap.set_lazy]

theorem Insert_TLSCertificateDelegation (o : TLSCertificateDelegation) :
    kc.Insert g (.TLSCertificateDelegation (some o)) = some (true, { kc with
      delegations := some (Finmap.insert ⟨o.ObjectMeta.Name, o.ObjectMeta.Namespace⟩ o
        (kc.delegations.getD ∅)) }) := by
  simp [KubernetesCache.Insert, GoMap.set_lazy]

theorem Insert_Ingress (o : Ingress) :
    kc.Insert g (.Ingress (some o)) =
      if g o.ObjectMeta.Annotations ≠ "" ∧ g o.ObjectMeta.Annotations ≠ kc.ingressClass then
        some (false, kc)
      else some (true, { kc with
        ingresses := some (Finmap.insert ⟨o.ObjectMeta.Name, o.ObjectMeta.Namespace⟩ o
          (kc.ingresses.getD ∅)) }) := by
  simp only [KubernetesCache.Insert, Option.bind_eq_bind, Option.some_bind, GoMap.set_lazy,
    Option.pure_def]

theorem Insert_IngressRoute (o : IngressRoute) :
    kc.Insert g (.IngressRoute (some o)) =
      if g o.ObjectMeta.Annotations ≠ "" ∧ g o.ObjectMeta.Annotations ≠ kc.ingressClass then
        some (false, kc)
      else some (true, { kc with
        ingressroutes := some (Finmap.insert ⟨o.ObjectMeta.Name, o.ObjectMeta.Namespace⟩ o
          (kc.ingressroutes.getD ∅)) }) := by
  simp only [KubernetesCache.Insert, Option.bind_eq_bind, Option.some_bind, GoMap.set_lazy,
    Option.pure_def]

theorem Insert_of_not_recognised (o : Object) (h : o.recognised = false) :
    kc.Insert g o = some (false, kc) := by
  cases o <;> simp_all [KubernetesCache.Insert, Object.recognised]

theorem Insert_of_isNilPointer (o : Object) (h : o.isNilPointer = true) :
    kc.Insert g o = none := by
  cases o with
  | DeletedFinalStateUnknown _ _ => simp [Object.isNilPointer] at h
  | Other _ => simp [Object.isNilPointer] at h
  | _ p => cases p <;> simp_all [KubernetesCache.Insert, Object.isNilPointer]

theorem ingressClass_eq :
    kc.ingressClass = if kc.IngressClass = "" then "contour" else kc.IngressClass := rfl

theorem remove_Secret (o : Secret) :
    kc.remove (.Secret (some o)) =
      some ((kc.secrets.index ⟨o.ObjectMeta.Name, o.ObjectMeta.Namespace⟩).isSome, { kc with
        secrets := kc.secrets.delete ⟨o.ObjectMeta.Name, o.ObjectMeta.Namespace⟩ }) := rfl

theorem remove_Service (o : Service) :
    kc.remove (.Service (some o)) =
      some ((kc.services.index ⟨o.ObjectMeta.Name, o.ObjectMeta.Namespace⟩).isSome, { kc with
        services := kc.services.delete ⟨o.ObjectMeta.Name, o.ObjectMeta.Namespace⟩ }) := rfl

theorem remove_Ingress (o : Ingress) :
    kc.remove (.Ingress (some o)) =
      some ((kc.ingresses.index ⟨o.ObjectMeta.Name, o.ObjectMeta.Namespace⟩).isSome, { kc with
        ingresses := kc.ingresses.delete ⟨o.ObjectMeta.Name, o.ObjectMeta.Namespace⟩ }) := rfl

theorem remove_IngressRoute (o : IngressRoute) :
    kc.remove (.IngressRoute (some o)) =
      some ((kc.ingressroutes.index ⟨o.ObjectMeta.Name, o.ObjectMeta.Namespace⟩).isSome,
        { kc with
          ingressroutes :=
            kc.ingressroutes.delete ⟨o.ObjectMeta.Name, o.ObjectMeta.Namespace⟩ }) := rfl

theorem remove_TLSCertificateDelegation (o : TLSCertificateDelegation) :
    kc.remove (.TLSCertificateDelegation (some o)) =
      some ((kc.delegations.index ⟨o.ObjectMeta.Name, o.ObjectMeta.Namespace⟩).isSome,
        { kc with
          delegations :=
            kc.delegations.delete ⟨o.ObjectMeta.Name, o.ObjectMeta.Namespace⟩ }) := rfl

theorem remove_of_not_recognised (o : Object) (h : o.recognised = false) :
    kc.remove o = some (false, kc) := by
  cases o <;> simp_all [KubernetesCache.remove, Object.recognised]

theorem Remove_eq_remove_unwrap (o : Object) : kc.Remove o = kc.remove o.unwrap := by
  induction o with
  | DeletedFinalStateUnknown _ _ ih => simpa [KubernetesCache.Remove, Object.unwrap] using ih
  | _ => simp [KubernetesCache.Remove, Object.unwrap]

theorem Remove_of_not_tombstone (o : Object) (h : o.isTombstone = false) :
    kc.Remove o = kc.remove o := by
  cases o <;> simp_all [KubernetesCache.Remove, Object.isTombstone]

theorem unwrap_of_key (o : Object) (k : Kind) (i : Meta) (h : o.key? = some (k, i)) :
    o.unwrap = o := by
  cases o <;> simp_all [Object.unwrap, Object.key?]

theorem index_upsert {V : Type} (m : GoMap V) (k i : Meta) (v : V) :
    GoMap.index (some (Finmap.insert k v (m.getD ∅))) i =
      if k = i then some v else m.index i := by
  by_cases hi : k = i
  · subst hi
    simp [GoMap.index_some_insert]
  · have hne : i ≠ k := fun e => hi e.symm
    simp [hi, GoMap.index_some_insert_ne _ _ _ _ hne, GoMap.index_getD]

/-- What `Insert` does to the entry under any kind and identity. -/
theorem entry_Insert (o : Object) (b : Bool) (kc1 : KubernetesCache)
    (h : kc.Insert g o = some (b, kc1)) (k : Kind) (i : Meta) :
    kc1.entry k i = if b = true ∧ o.key? = some (k, i) then some o else kc.entry k i := by
  cases o with
  | DeletedFinalStateUnknown _ _ =>
    simp [KubernetesCache.Insert] at h
    obtain ⟨rfl, rfl⟩ := h
    simp
  | Other _ =>
    simp [KubernetesCache.Insert] at h
    obtain ⟨rfl, rfl⟩ := h
    simp
  | Secret p =>
    cases p with
    | none => simp [KubernetesCache.Insert] at h
    | some o =>
      rw [Insert_Secret] at h
      simp only [Option.some.injEq, Prod.mk.injEq] at h
      obtain ⟨rfl, rfl⟩ := h
      cases k <;> simp [KubernetesCache.entry, Object.key?, index_upsert]
      split <;> simp
  | Service p =>
    cases p with
    | none => simp [KubernetesCache.Insert] at h
    | some o =>
      rw [Insert_Service] at h
      simp only [Option.some.injEq, Prod.mk.injEq] at h
      obtain ⟨rfl, rfl⟩ := h
      cases k <;> simp [KubernetesCache.entry, Object.key?, index_upsert]
      split <;> simp
  | TLSCertificateDelegation p =>
    cases p with
    | none => simp [KubernetesCache.Insert] at h
    | some o =>
      rw [Insert_TLSCertificateDelegation] at h
      simp only [Option.some.injEq, Prod.mk.injEq] at h
      obtain ⟨rfl, rfl⟩ := h
      cases k <;> simp [KubernetesCache.entry, Object.key?, index_upsert]
      split <;> simp
  | Ingress p =>
    cases p with
    | none => simp [KubernetesCache.Insert] at h
    | some o =>
      rw [Insert_Ingress] at h
      split at h
      · simp only [Option.some.injEq, Prod.mk.injEq] at h
        obtain ⟨rfl, rfl⟩ := h
        simp
      · simp only [Option.some.injEq, Prod.mk.injEq] at h
        obtain ⟨rfl, rfl⟩ := h
        cases k <;> simp [KubernetesCache.entry, Object.key?, index_upsert]
        split <;> simp
  | IngressRoute p =>
    cases p with
    | none => simp [KubernetesCache.Insert] at h
    | some o =>
      rw [Insert_IngressRoute] at h
      split at h
      · simp only [Option.some.injEq, Prod.mk.injEq] at h
        obtain ⟨rfl, rfl⟩ := h
        simp
      · simp only [Option.some.injEq, Prod.mk.injEq] at h
        obtain ⟨rfl, rfl⟩ := h
        cases k <;> simp [KubernetesCache.entry, Object.key?, index_upsert]
        split <;> simp

/-- What `remove` does to the entry under any kind and identity. -/
theorem entry_remove (o : Object) (b : Bool) (kc1 : KubernetesCache)
    (h : kc.remove o = some (b, kc1)) (k : Kind) (i : Meta) :
    kc1.entry k i = if o.key? = some (k, i) then none else kc.entry k i := by
  cases o with
  | DeletedFinalStateUnknown _ _ =>
    simp [KubernetesCache.remove] at h
    obtain ⟨rfl, rfl⟩ := h
    simp [Object.key?]
  | Other _ =>
    simp [KubernetesCache.remove] at h
    obtain ⟨rfl, rfl⟩ := h
    simp [Object.key?]
  | Secret p =>
    cases p with
    | none => simp [KubernetesCache.remove] at h
    | some o =>
      rw [remove_Secret] at h
      simp only [Option.some.injEq, Prod.mk.injEq] at h
      obtain ⟨rfl, rfl⟩ := h
      cases k <;> simp [KubernetesCache.entry, Object.key?]
      split
      · next hi => subst hi; simp [GoMap.index_delete_self]
      · next hi => rw [GoMap.index_delete_ne _ _ _ (fun e => hi e.symm)]
  | Service p =>
    cases p with
    | none => simp [KubernetesCache.remove] at h
    | some o =>
      rw [remove_Service] at h
      simp only [Option.some.injEq, Prod.mk.injEq] at h
      obtain ⟨rfl, rfl⟩ := h
      cases k <;> simp [KubernetesCache.entry, Object.key?]
      split
      · next hi => subst hi; simp [GoMap.index_delete_self]
      · next hi => rw [GoMap.index_delete_ne _ _ _ (fun e => hi e.symm)]
  | Ingress p =>
    cases p with
    | none => simp [KubernetesCache.remove] at h
    | some o =>
      rw [remove_Ingress] at h
      simp only [Option.some.injEq, Prod.mk.injEq] at h
      obtain ⟨rfl, rfl⟩ := h
      cases k <;> simp [KubernetesCache.entry, Object.key?]
      split
      · next hi => subst hi; simp [GoMap.index_delete_self]
      · next hi => rw [GoMap.index_delete_ne _ _ _ (fun e => hi e.symm)]
  | IngressRoute p =>
    cases p with
    | none => simp [KubernetesCache.remove] at h
    | some o =>
      rw [remove_IngressRoute] at h
      simp only [Option.some.injEq, Prod.mk.injEq] at h
      obtain ⟨rfl, rfl⟩ := h
      cases k <;> simp [KubernetesCache.entry, Object.key?]
      split
      · next hi => subst hi; simp [GoMap.index_delete_self]
      · next hi => rw [GoMap.index_delete_ne _ _ _ (fun e => hi e.symm)]
  | TLSCertificateDelegation p =>
    cases p with
    | none => simp [KubernetesCache.remove] at h
    | some o =>
      rw [remove_TLSCertificateDelegation] at h
      simp only [Option.some.injEq, Prod.mk.injEq] at h
      obtain ⟨rfl, rfl⟩ := h
      cases k <;> simp [KubernetesCache.entry, Object.key?]
      split
      · next hi => subst hi; simp [GoMap.index_delete_self]
      · next hi => rw [GoMap.index_delete_ne _ _ _ (fun e => hi e.symm)]

/-- What `Remove` does to the entry under any kind and identity. -/
theorem entry_Remove (o : Object) (b : Bool) (kc1 : KubernetesCache)
    (h : kc.Remove o = some (b, kc1)) (k : Kind) (i : Meta) :
    kc1.entry k i = if o.unwrap.key? = some (k, i) then none else kc.entry k i := by
  rw [Remove_eq_remove_unwrap] at h
  exact entry_remove kc _ b kc1 h k i

theorem call_isSome (c : Call) (h : c.panics = false) : (kc.call g c).isSome = true := by
  cases c with
  | Insert o =>
    cases o with
    | DeletedFinalStateUnknown _ _ => simp [KubernetesCache.call, KubernetesCache.Insert]
    | Other _ => simp [KubernetesCache.call, KubernetesCache.Insert]
    | Secret p => cases p <;> simp_all [KubernetesCache.call, Insert_Secret, Call.panics, Object.isNilPointer]
    | Service p => cases p <;> simp_all [KubernetesCache.call, Insert_Service, Call.panics, Object.isNilPointer]
    | TLSCertificateDelegation p =>
      cases p <;> simp_all [KubernetesCache.call, Insert_TLSCertificateDelegation, Call.panics, Object.isNilPointer]
    | Ingress p =>
      cases p
      · simp_all [Call.panics, Object.isNilPointer]
      · simp only [KubernetesCache.call, Insert_Ingress]; split <;> rfl
    | IngressRoute p =>
      cases p
      · simp_all [Call.panics, Object.isNilPointer]
      · simp only [KubernetesCache.call, Insert_IngressRoute]; split <;> rfl
  | Remove o =>
    simp only [KubernetesCache.call, Remove_eq_remove_unwrap]
    simp only [Call.panics] at h
    generalize o.unwrap = u at h
    cases u with
    | DeletedFinalStateUnknown _ _ => simp [KubernetesCache.remove]
    | Other _ => simp [KubernetesCache.remove]
    | _ p => cases p <;> simp_all [KubernetesCache.remove, Object.isNilPointer]

theorem history_append (cs : List Call) (c : Call) :
    kc.history g (cs ++ [c]) =
      (kc.history g cs).bind fun t =>
        (t.2.call g c).map fun r => (t.1 ++ [(c, r.1)], r.2) := by
  induction cs generalizing kc with
  | nil =>
    simp only [List.nil_append, KubernetesCache.history, Option.some_bind]
    cases kc.call g c <;> simp
  | cons d ds ih =>
    simp only [List.cons_append, KubernetesCache.history]
    cases hd : kc.call g d with
    | none => simp
    | some r =>
      simp only [Option.some_bind, List.append_eq]
      rw [ih r.2]
      cases hh : r.2.history g ds with
      | none => simp
      | some t =>
        simp only [Option.map_some', Option.some_bind]
        cases t.2.call g c <;> simp

theorem history_isSome (cs : List Call) (h : ∀ c ∈ cs, c.panics = false) :
    (kc.history g cs).isSome = true := by
  induction cs generalizing kc with
  | nil => rfl
  | cons d ds ih =>
    have hd := call_isSome g kc d (h d (List.mem_cons_self _ _))
    obtain ⟨r, hr⟩ := Option.isSome_iff_exists.mp hd
    have ht := ih r.2 (fun c hc => h c (List.mem_cons_of_mem _ hc))
    obtain ⟨t, ht⟩ := Option.isSome_iff_exists.mp ht
    simp [KubernetesCache.history, hr, ht]

/-- The entries of a cache reached from the empty store are those the last-write-wins rule
prescribes. -/
theorem entry_history (cls : String) (ns : List String) (cs : List Call)
    (log : List (Call × Bool)) (kc1 : KubernetesCache)
    (h : (KubernetesCache.empty cls ns).history g cs = some (log, kc1)) (k : Kind) (i : Meta) :
    kc1.entry k i = lastWrite k i log.reverse := by
  induction cs using List.reverseRecOn generalizing log kc1 with
  | nil =>
    simp only [KubernetesCache.history, Option.some.injEq, Prod.mk.injEq] at h
    obtain ⟨rfl, rfl⟩ := h
    cases k <;> rfl
  | append_singleton cs c ih =>
    rw [history_append] at h
    cases ht : (KubernetesCache.empty cls ns).history g cs with
    | none => simp [ht] at h
    | some t =>
      obtain ⟨log0, kc0⟩ := t
      simp only [ht, Option.some_bind] at h
      cases hr : kc0.call g c with
      | none => simp [hr] at h
      | some r =>
        obtain ⟨b, kc2⟩ := r
        simp only [hr, Option.map_some', Option.some.injEq, Prod.mk.injEq] at h
        obtain ⟨rfl, rfl⟩ := h
        have ih0 := ih log0 kc0 ht
        rw [List.reverse_append, List.reverse_singleton, List.singleton_append]
        cases c with
        | Insert o =>
          simp only [lastWrite]
          rw [entry_Insert g kc0 o b _ hr k i, ih0]
        | Remove o =>
          simp only [lastWrite]
          rw [entry_Remove kc0 o b _ hr k i, ih0]

end Equations

/-! ## Claims about `Insert` and `Remove` -/

/-- C1. Class-filter rejection: whatever the store, when the ingress-class string of an
HTTP-ingress or ingress-route object is non-empty and differs from the store's effective
class (its `IngressClass`, or `"contour"` when that is unset), `Insert` returns false and
the cache, every partition of it, is exactly what it was. -/
theorem Insert_rejects_foreign_class (g : AnnotationMap → String) (kc : KubernetesCache)
    (cls : String) (hne : cls ≠ "")
    (hc : cls ≠ (if kc.IngressClass = "" then "contour" else kc.IngressClass)) :
    (∀ o : Ingress, g o.ObjectMeta.Annotations = cls →
      kc.Insert g (.Ingress (some o)) = some (false, kc)) ∧
    (∀ o : IngressRoute, g o.ObjectMeta.Annotations = cls →
      kc.Insert g (.IngressRoute (some o)) = some (false, kc)) := by
  rw [← ingressClass_eq] at hc
  constructor
  · intro o ho
    rw [Insert_Ingress, if_pos (by rw [ho]; exact ⟨hne, hc⟩)]
  · intro o ho
    rw [Insert_IngressRoute, if_pos (by rw [ho]; exact ⟨hne, hc⟩)]

theorem Insert_rejects_foreign_class_witness :
    (KubernetesCache.empty "" []).Insert classOf
        (.Ingress (some ⟨⟨"bar", "default", annotatedClass "nginx"⟩, ""⟩)) =
      some (false, KubernetesCache.empty "" []) ∧
    (KubernetesCache.empty "" []).Insert classOf
        (.IngressRoute (some ⟨⟨"bar", "default", annotatedClass "nginx"⟩, ""⟩)) =
      some (false, KubernetesCache.empty "" []) :=
  have h := Insert_rejects_foreign_class classOf (KubernetesCache.empty "" []) "nginx"
    (by decide) (by decide)
  ⟨h.1 _ (by decide), h.2 _ (by decide)⟩

/-- C2. Class-filter acceptance: whatever the store, when the ingress-class string of an
HTTP-ingress or ingress-route object is empty (absent or empty annotation) or equal to the
store's effective class, `Insert` returns true and afterwards the partition of the object's
kind holds that object under its name and namespace. -/
theorem Insert_accepts_own_class (g : AnnotationMap → String) (kc : KubernetesCache)
    (cls : String)
    (hc : cls = "" ∨ cls = (if kc.IngressClass = "" then "contour" else kc.IngressClass)) :
    (∀ o : Ingress, g o.ObjectMeta.Annotations = cls →
      ∃ kc1, kc.Insert g (.Ingress (some o)) = some (true, kc1) ∧
        kc1.ingresses.index ⟨o.ObjectMeta.Name, o.ObjectMeta.Namespace⟩ = some o) ∧
    (∀ o : IngressRoute, g o.ObjectMeta.Annotations = cls →
      ∃ kc1, kc.Insert g (.IngressRoute (some o)) = some (true, kc1) ∧
        kc1.ingressroutes.index ⟨o.ObjectMeta.Name, o.ObjectMeta.Namespace⟩ = some o) := by
  rw [← ingressClass_eq] at hc
  constructor
  · intro o ho
    have hno : ¬ (g o.ObjectMeta.Annotations ≠ "" ∧
        g o.ObjectMeta.Annotations ≠ kc.ingressClass) := by
      rw [ho]; rcases hc with h | h <;> simp [h]
    rw [Insert_Ingress, if_neg hno]
    exact ⟨_, rfl, GoMap.index_some_insert _ _ _⟩
  · intro o ho
    have hno : ¬ (g o.ObjectMeta.Annotations ≠ "" ∧
        g o.ObjectMeta.Annotations ≠ kc.ingressClass) := by
      rw [ho]; rcases hc with h | h <;> simp [h]
    rw [Insert_IngressRoute, if_neg hno]
    exact ⟨_, rfl, GoMap.index_some_insert _ _ _⟩

theorem Insert_accepts_own_class_witness :
    (∃ kc1, (KubernetesCache.empty "" []).Insert classOf
        (.Ingress (some ⟨⟨"bar", "default", annotatedClass "contour"⟩, ""⟩)) =
          some (true, kc1) ∧
      kc1.ingresses.index ⟨"bar", "default"⟩ =
        some ⟨⟨"bar", "default", annotatedClass "contour"⟩, ""⟩) ∧
    (∃ kc1, (KubernetesCache.empty "" []).Insert classOf
        (.IngressRoute (some ⟨⟨"bar", "default", []⟩, ""⟩)) = some (true, kc1) ∧
      kc1.ingressroutes.index ⟨"bar", "default"⟩ = some ⟨⟨"bar", "default", []⟩, ""⟩) :=
  ⟨(Insert_accepts_own_class classOf (KubernetesCache.empty "" []) "contour"
      (Or.inr (by decide))).1 ⟨⟨"bar", "default", annotatedClass "contour"⟩, ""⟩ (by decide),
   (Insert_accepts_own_class classOf (KubernetesCache.empty "" []) ""
      (Or.inl rfl)).2 ⟨⟨"bar", "default", []⟩, ""⟩ (by decide)⟩

/-- C3. Unconditional acceptance: whatever the store (its class, its partitions nil or
not) and whatever the annotations of a secret, service or TLS-delegation object, `Insert`
returns true and afterwards the partition of the object's kind holds that object under its
name and namespace. -/
theorem Insert_accepts_unconditionally (g : AnnotationMap → String) (kc : KubernetesCache) :
    (∀ o : Secret, ∃ kc1, kc.Insert g (.Secret (some o)) = some (true, kc1) ∧
      kc1.secrets.index ⟨o.ObjectMeta.Name, o.ObjectMeta.Namespace⟩ = some o) ∧
    (∀ o : Service, ∃ kc1, kc.Insert g (.Service (some o)) = some (true, kc1) ∧
      kc1.services.index ⟨o.ObjectMeta.Name, o.ObjectMeta.Namespace⟩ = some o) ∧
    (∀ o : TLSCertificateDelegation,
      ∃ kc1, kc.Insert g (.TLSCertificateDelegation (some o)) = some (true, kc1) ∧
        kc1.delegations.index ⟨o.ObjectMeta.Name, o.ObjectMeta.Namespace⟩ = some o) := by
  refine ⟨fun o => ?_, fun o => ?_, fun o => ?_⟩
  · rw [Insert_Secret]
    exact ⟨_, rfl, GoMap.index_some_insert _ _ _⟩
  · rw [Insert_Service]
    exact ⟨_, rfl, GoMap.index_some_insert _ _ _⟩
  · rw [Insert_TLSCertificateDelegation]
    exact ⟨_, rfl, GoMap.index_some_insert _ _ _⟩

/-- C4. Unrecognised kinds are rejected: for an argument whose dynamic type is none of the
five pointer types, `Insert` returns false and leaves the cache as it was, and so does
`Remove` unless the argument is a final-state-unknown tombstone. -/
theorem unrecognised_kind_rejected (g : AnnotationMap → String) (kc : KubernetesCache)
    (o : Object) (h : o.recognised = false) :
    kc.Insert g o = some (false, kc) ∧
      (o.isTombstone = false → kc.Remove o = some (false, kc)) := by
  refine ⟨Insert_of_not_recognised g kc o h, fun ht => ?_⟩
  rw [Remove_of_not_tombstone kc o ht]
  exact remove_of_not_recognised kc o h

theorem unrecognised_kind_rejected_witness :
    (KubernetesCache.empty "" []).Insert classOf (.Other "*v1.Pod") =
        some (false, KubernetesCache.empty "" []) ∧
      (KubernetesCache.empty "" []).Remove (.Other "*v1.Pod") =
        some (false, KubernetesCache.empty "" []) :=
  have h := unrecognised_kind_rejected classOf (KubernetesCache.empty "" [])
    (.Other "*v1.Pod") rfl
  ⟨h.1, h.2 rfl⟩

/-- What `Remove` does with a non-nil pointer of kind `k` and identity `i`. -/
theorem Remove_of_key (kc : KubernetesCache) (o : Object) (k : Kind) (i : Meta)
    (h : o.key? = some (k, i)) :
    ∃ kc1, kc.Remove o = some ((kc.entry k i).isSome, kc1) ∧ kc1.entry k i = none ∧
      (kc.entry k i = none → kc1 = kc) := by
  have hr : kc.Remove o = kc.remove o := by
    rw [Remove_eq_remove_unwrap, unwrap_of_key o k i h]
  have key : ∃ kc1, kc.remove o = some ((kc.entry k i).isSome, kc1) ∧
      (kc.entry k i = none → kc1 = kc) := by
    cases o with
    | DeletedFinalStateUnknown _ _ => simp [Object.key?] at h
    | Other _ => simp [Object.key?] at h
    | Secret p =>
      cases p with
      | none => simp [Object.key?] at h
      | some o =>
        simp only [Object.key?, Option.some.injEq, Prod.mk.injEq] at h
        obtain ⟨rfl, rfl⟩ := h
        have e : (kc.entry .Secret ⟨o.ObjectMeta.Name, o.ObjectMeta.Namespace⟩).isSome =
            (kc.secrets.index ⟨o.ObjectMeta.Name, o.ObjectMeta.Namespace⟩).isSome := by
          simp [KubernetesCache.entry]
        rw [remove_Secret, e]
        refine ⟨_, rfl, fun hn => ?_⟩
        rw [GoMap.delete_eq_self kc.secrets _ (by simpa [KubernetesCache.entry] using hn)]
    | Service p =>
      cases p with
      | none => simp [Object.key?] at h
      | some o =>
        simp only [Object.key?, Option.some.injEq, Prod.mk.injEq] at h
        obtain ⟨rfl, rfl⟩ := h
        have e : (kc.entry .Service ⟨o.ObjectMeta.Name, o.ObjectMeta.Namespace⟩).isSome =
            (kc.services.index ⟨o.ObjectMeta.Name, o.ObjectMeta.Namespace⟩).isSome := by
          simp [KubernetesCache.entry]
        rw [remove_Service, e]
        refine ⟨_, rfl, fun hn => ?_⟩
        rw [GoMap.delete_eq_self kc.services _ (by simpa [KubernetesCache.entry] using hn)]
    | Ingress p =>
      cases p with
      | none => simp [Object.key?] at h
      | some o =>
        simp only [Object.key?, Option.some.injEq, Prod.mk.injEq] at h
        obtain ⟨rfl, rfl⟩ := h
        have e : (kc.entry .Ingress ⟨o.ObjectMeta.Name, o.ObjectMeta.Namespace⟩).isSome =
            (kc.ingresses.index ⟨o.ObjectMeta.Name, o.ObjectMeta.Namespace⟩).isSome := by
          simp [KubernetesCache.entry]
        rw [remove_Ingress, e]
        refine ⟨_, rfl, fun hn => ?_⟩
        rw [GoMap.delete_eq_self kc.ingresses _ (by simpa [KubernetesCache.entry] using hn)]
    | IngressRoute p =>
      cases p with
      | none => simp [Object.key?] at h
      | some o =>
        simp only [Object.key?, Option.some.injEq, Prod.mk.injEq] at h
        obtain ⟨rfl, rfl⟩ := h
        have e : (kc.entry .IngressRoute ⟨o.ObjectMeta.Name, o.ObjectMeta.Namespace⟩).isSome =
            (kc.ingressroutes.index ⟨o.ObjectMeta.Name, o.ObjectMeta.Namespace⟩).isSome := by
          simp [KubernetesCache.entry]
        rw [remove_IngressRoute, e]
        refine ⟨_, rfl, fun hn => ?_⟩
        rw [GoMap.delete_eq_self kc.ingressroutes _ (by simpa [KubernetesCache.entry] using hn)]
    | TLSCertificateDelegation p =>
      cases p with
      | none => simp [Object.key?] at h
      | some o =>
        simp only [Object.key?, Option.some.injEq, Prod.mk.injEq] at h
        obtain ⟨rfl, rfl⟩ := h
        have e : (kc.entry .TLSCertificateDelegation ⟨o.ObjectMeta.Name, o.ObjectMeta.Namespace⟩).isSome =
            (kc.delegations.index ⟨o.ObjectMeta.Name, o.ObjectMeta.Namespace⟩).isSome := by
          simp [KubernetesCache.entry]
        rw [remove_TLSCertificateDelegation, e]
        refine ⟨_, rfl, fun hn => ?_⟩
        rw [GoMap.delete_eq_self kc.delegations _ (by simpa [KubernetesCache.entry] using hn)]
  obtain ⟨kc1, h1, h2⟩ := key
  refine ⟨kc1, by rw [hr, h1], ?_, h2⟩
  rw [entry_remove kc o _ kc1 h1 k i, if_pos h]

/-- C5. Remove is identity-only and reports change exactly: for a non-nil pointer of a
recognised kind `k` with identity `i`, `Remove` returns true exactly when the partition of
`k` held an entry under `i`, a condition in which the content of the argument plays no
part; after a true the entry is absent, after a false the cache is what it was, and the
boolean is true exactly when the cache after the call differs from the cache before. -/
theorem Remove_reports_change (kc : KubernetesCache) (o : Object) (k : Kind) (i : Meta)
    (h : o.key? = some (k, i)) :
    ∃ b kc1, kc.Remove o = some (b, kc1) ∧
      (b = true ↔ (kc.entry k i).isSome = true) ∧
      (b = true → kc1.entry k i = none) ∧
      (b = false → kc1 = kc) ∧
      (b = true ↔ kc1 ≠ kc) := by
  obtain ⟨kc1, h1, h2, h3⟩ := Remove_of_key kc o k i h
  refine ⟨_, kc1, h1, Iff.rfl, fun _ => h2, fun hb => h3 (by simpa using hb), ?_⟩
  constructor
  · intro hb heq
    rw [heq] at h2
    rw [h2] at hb
    simp at hb
  · intro hne
    by_contra hb
    exact hne (h3 (by simpa using hb))

theorem Remove_reports_change_witness :
    ∃ b kc1, (KubernetesCache.empty "" []).Remove
        (.Secret (some ⟨⟨"foo", "default", []⟩, ""⟩)) = some (b, kc1) ∧
      (b = true ↔
        ((KubernetesCache.empty "" []).entry .Secret ⟨"foo", "default"⟩).isSome = true) ∧
      (b = true → kc1.entry .Secret ⟨"foo", "default"⟩ = none) ∧
      (b = false → kc1 = KubernetesCache.empty "" []) ∧
      (b = true ↔ kc1 ≠ KubernetesCache.empty "" []) :=
  Remove_reports_change (KubernetesCache.empty "" [])
    (.Secret (some ⟨⟨"foo", "default", []⟩, ""⟩)) .Secret ⟨"foo", "default"⟩ rfl

/-- C6. Tombstone unwrapping: `Remove` of a final-state-unknown wrapper around any
argument, itself a tombstone or not, returns what `Remove` of the wrapped argument returns
and leaves the same cache. -/
theorem Remove_tombstone (kc : KubernetesCache) (key : String) (O : Object) :
    kc.Remove (.DeletedFinalStateUnknown key O) = kc.Remove O := by
  simp [KubernetesCache.Remove]

theorem history_calls (g : AnnotationMap → String) (kc : KubernetesCache) (cs : List Call)
    (log : List (Call × Bool)) (kc1 : KubernetesCache)
    (h : kc.history g cs = some (log, kc1)) : log.map Prod.fst = cs := by
  induction cs generalizing kc log with
  | nil =>
    simp only [KubernetesCache.history, Option.some.injEq, Prod.mk.injEq] at h
    rw [← h.1]; rfl
  | cons d ds ih =>
    simp only [KubernetesCache.history] at h
    cases hd : kc.call g d with
    | none => simp [hd] at h
    | some r =>
      simp only [hd, Option.some_bind] at h
      cases ht : r.2.history g ds with
      | none => simp [ht] at h
      | some t =>
        simp only [ht, Option.map_some', Option.some.injEq, Prod.mk.injEq] at h
        obtain ⟨rfl, rfl⟩ := h
        have := ih r.2 t.1 ht
        simp [this]

theorem lastWrite_none (k : Kind) (i : Meta) (log : List (Call × Bool))
    (h : ∀ o, Call.Insert o ∈ log.map Prod.fst → o.key? ≠ some (k, i)) :
    lastWrite k i log = none := by
  induction log with
  | nil => rfl
  | cons e es ih =>
    obtain ⟨c, b⟩ := e
    have ih1 := ih (fun o ho => h o (by simp only [List.map_cons]; exact List.mem_cons_of_mem _ ho))
    cases c with
    | Insert o =>
      have := h o (by simp)
      simp [lastWrite, this, ih1]
    | Remove o =>
      simp only [lastWrite, ih1]
      split <;> rfl

/-- C7. Last-write-wins over any history: after any finite sequence of `Insert` and
`Remove` calls on the empty store, none of them a nil dereference, the calls have all
returned, every partition holds at most one entry per identity, and the entry of kind `k`
under identity `i` is the object of the most recent `Insert` of that kind and identity
that returned true if no `Remove` of that kind and identity followed it, and is absent
otherwise. -/
theorem last_write_wins (g : AnnotationMap → String) (cls : String) (ns : List String)
    (calls : List Call) (h : ∀ c ∈ calls, c.panics = false) :
    ∃ log kc1, (KubernetesCache.empty cls ns).history g calls = some (log, kc1) ∧
      log.map Prod.fst = calls ∧
      ∀ k i, kc1.count k i ≤ 1 ∧ kc1.entry k i = lastWrite k i log.reverse := by
  have hs := history_isSome g (KubernetesCache.empty cls ns) calls h
  obtain ⟨⟨log, kc1⟩, ht⟩ := Option.isSome_iff_exists.mp hs
  refine ⟨log, kc1, ht, history_calls g _ calls log kc1 ht, fun k i => ⟨?_, ?_⟩⟩
  · cases k <;> exact GoMap.count_le_one _ _
  · exact entry_history g cls ns calls log kc1 ht k i

theorem last_write_wins_witness :
    ∃ log kc1, (KubernetesCache.empty "" []).history classOf
        [.Insert (.Secret (some ⟨⟨"foo", "default", []⟩, "a"⟩)),
         .Insert (.Ingress (some ⟨⟨"bar", "default", annotatedClass "nginx"⟩, ""⟩)),
         .Insert (.Secret (some ⟨⟨"foo", "default", []⟩, "b"⟩)),
         .Remove (.DeletedFinalStateUnknown "default/baz"
           (.Service (some ⟨⟨"baz", "default", []⟩, ""⟩)))] = some (log, kc1) ∧
      log.map Prod.fst =
        [.Insert (.Secret (some ⟨⟨"foo", "default", []⟩, "a"⟩)),
         .Insert (.Ingress (some ⟨⟨"bar", "default", annotatedClass "nginx"⟩, ""⟩)),
         .Insert (.Secret (some ⟨⟨"foo", "default", []⟩, "b"⟩)),
         .Remove (.DeletedFinalStateUnknown "default/baz"
           (.Service (some ⟨⟨"baz", "default", []⟩, ""⟩)))] ∧
      ∀ k i, kc1.count k i ≤ 1 ∧ kc1.entry k i = lastWrite k i log.reverse :=
  last_write_wins classOf "" [] _ (by decide)

theorem isNilPointer_of_key (o : Object) (k : Kind) (i : Meta) (h : o.key? = some (k, i)) :
    o.isNilPointer = false := by
  cases o with
  | DeletedFinalStateUnknown _ _ => rfl
  | Other _ => rfl
  | _ p => cases p <;> simp_all [Object.key?, Object.isNilPointer]

theorem Insert_isSome (g : AnnotationMap → String) (kc : KubernetesCache) (o : Object)
    (h : o.isNilPointer = false) : ∃ b kc1, kc.Insert g o = some (b, kc1) := by
  have := call_isSome g kc (.Insert o) h
  obtain ⟨r, hr⟩ := Option.isSome_iff_exists.mp this
  exact ⟨r.1, r.2, hr⟩

theorem count_of_entry (kc : KubernetesCache) (k : Kind) (i : Meta) (o : Object)
    (h : kc.entry k i = some o) : kc.count k i = 1 := by
  cases k <;> simp only [KubernetesCache.entry, Option.map_eq_some'] at h <;>
    obtain ⟨v, hv, _⟩ := h <;> exact GoMap.count_eq_one _ _ v hv

theorem Insert_ingressClass (g : AnnotationMap → String) (kc : KubernetesCache) (o : Object)
    (b : Bool) (kc1 : KubernetesCache) (h : kc.Insert g o = some (b, kc1)) :
    kc1.ingressClass = kc.ingressClass := by
  cases o with
  | DeletedFinalStateUnknown _ _ =>
    simp [KubernetesCache.Insert] at h
    rw [h.2]
  | Other _ =>
    simp [KubernetesCache.Insert] at h
    rw [h.2]
  | Secret p =>
    cases p with
    | none => simp [KubernetesCache.Insert] at h
    | some o =>
      rw [Insert_Secret] at h
      simp only [Option.some.injEq, Prod.mk.injEq] at h
      rw [← h.2]; rfl
  | Service p =>
    cases p with
    | none => simp [KubernetesCache.Insert] at h
    | some o =>
      rw [Insert_Service] at h
      simp only [Option.some.injEq, Prod.mk.injEq] at h
      rw [← h.2]; rfl
  | TLSCertificateDelegation p =>
    cases p with
    | none => simp [KubernetesCache.Insert] at h
    | some o =>
      rw [Insert_TLSCertificateDelegation] at h
      simp only [Option.some.injEq, Prod.mk.injEq] at h
      rw [← h.2]; rfl
  | Ingress p =>
    cases p with
    | none => simp [KubernetesCache.Insert] at h
    | some o =>
      rw [Insert_Ingress] at h
      split at h
      · simp only [Option.some.injEq, Prod.mk.injEq] at h
        rw [← h.2]
      · simp only [Option.some.injEq, Prod.mk.injEq] at h
        rw [← h.2]
        rfl
  | IngressRoute p =>
    cases p with
    | none => simp [KubernetesCache.Insert] at h
    | some o =>
      rw [Insert_IngressRoute] at h
      split at h
      · simp only [Option.some.injEq, Prod.mk.injEq] at h
        rw [← h.2]
      · simp only [Option.some.injEq, Prod.mk.injEq] at h
        rw [← h.2]
        rfl

/-- The boolean `Insert` returns for a non-nil pointer of a recognised kind is decided by
the class filter alone. -/
theorem Insert_accepted_iff (g : AnnotationMap → String) (kc : KubernetesCache) (o : Object)
    (k : Kind) (i : Meta) (hk : o.key? = some (k, i))
    (b : Bool) (kc1 : KubernetesCache) (h : kc.Insert g o = some (b, kc1)) :
    b = true ↔ ∀ c, o.ingressClassOf? g = some c → c = "" ∨ c = kc.ingressClass := by
  cases o with
  | DeletedFinalStateUnknown _ _ => simp [Object.key?] at hk
  | Other _ => simp [Object.key?] at hk
  | Secret p =>
    cases p with
    | none => simp [KubernetesCache.Insert] at h
    | some o =>
      rw [Insert_Secret] at h
      simp only [Option.some.injEq, Prod.mk.injEq] at h
      simp [← h.1, Object.ingressClassOf?]
  | Service p =>
    cases p with
    | none => simp [KubernetesCache.Insert] at h
    | some o =>
      rw [Insert_Service] at h
      simp only [Option.some.injEq, Prod.mk.injEq] at h
      simp [← h.1, Object.ingressClassOf?]
  | TLSCertificateDelegation p =>
    cases p with
    | none => simp [KubernetesCache.Insert] at h
    | some o =>
      rw [Insert_TLSCertificateDelegation] at h
      simp only [Option.some.injEq, Prod.mk.injEq] at h
      simp [← h.1, Object.ingressClassOf?]
  | Ingress p =>
    cases p with
    | none => simp [KubernetesCache.Insert] at h
    | some o =>
      rw [Insert_Ingress] at h
      split at h
      · next hc =>
        simp only [Option.some.injEq, Prod.mk.injEq] at h
        simp [← h.1, Object.ingressClassOf?, hc.1, hc.2]
      · next hc =>
        simp only [Option.some.injEq, Prod.mk.injEq] at h
        simp only [← h.1, Object.ingressClassOf?, Option.some.injEq, true_iff]
        rintro c rfl
        by_contra hcon
        exact hc ⟨fun e => hcon (Or.inl e), fun e => hcon (Or.inr e)⟩
  | IngressRoute p =>
    cases p with
    | none => simp [KubernetesCache.Insert] at h
    | some o =>
      rw [Insert_IngressRoute] at h
      split at h
      · next hc =>
        simp only [Option.some.injEq, Prod.mk.injEq] at h
        simp [← h.1, Object.ingressClassOf?, hc.1, hc.2]
      · next hc =>
        simp only [Option.some.injEq, Prod.mk.injEq] at h
        simp only [← h.1, Object.ingressClassOf?, Option.some.injEq, true_iff]
        rintro c rfl
        by_contra hcon
        exact hc ⟨fun e => hcon (Or.inl e), fun e => hcon (Or.inr e)⟩

/-- `Insert` of the argument just inserted returns the same boolean and changes nothing. -/
theorem Insert_Insert (g : AnnotationMap → String) (kc : KubernetesCache) (o : Object)
    (b : Bool) (kc1 : KubernetesCache) (h : kc.Insert g o = some (b, kc1)) :
    kc1.Insert g o = some (b, kc1) := by
  cases o with
  | DeletedFinalStateUnknown _ _ =>
    simp [KubernetesCache.Insert] at h
    simp [KubernetesCache.Insert, ← h.1]
  | Other _ =>
    simp [KubernetesCache.Insert] at h
    simp [KubernetesCache.Insert, ← h.1]
  | Secret p =>
    cases p with
    | none => simp [KubernetesCache.Insert] at h
    | some o =>
      rw [Insert_Secret] at h
      simp only [Option.some.injEq, Prod.mk.injEq] at h
      obtain ⟨rfl, rfl⟩ := h
      simp [Insert_Secret, Finmap.insert_insert]
  | Service p =>
    cases p with
    | none => simp [KubernetesCache.Insert] at h
    | some o =>
      rw [Insert_Service] at h
      simp only [Option.some.injEq, Prod.mk.injEq] at h
      obtain ⟨rfl, rfl⟩ := h
      simp [Insert_Service, Finmap.insert_insert]
  | TLSCertificateDelegation p =>
    cases p with
    | none => simp [KubernetesCache.Insert] at h
    | some o =>
      rw [Insert_TLSCertificateDelegation] at h
      simp only [Option.some.injEq, Prod.mk.injEq] at h
      obtain ⟨rfl, rfl⟩ := h
      simp [Insert_TLSCertificateDelegation, Finmap.insert_insert]
  | Ingress p =>
    cases p with
    | none => simp [KubernetesCache.Insert] at h
    | some o =>
      rw [Insert_Ingress] at h
      split at h
      · next hc =>
        simp only [Option.some.injEq, Prod.mk.injEq] at h
        obtain ⟨rfl, rfl⟩ := h
        rw [Insert_Ingress]
        split
        · rfl
        · next hc2 => exact absurd hc hc2
      · next hc =>
        simp only [Option.some.injEq, Prod.mk.injEq] at h
        obtain ⟨rfl, rfl⟩ := h
        rw [Insert_Ingress]
        split
        · next hc2 => exact absurd hc2 hc
        · simp [Finmap.insert_insert]
  | IngressRoute p =>
    cases p with
    | none => simp [KubernetesCache.Insert] at h
    | some o =>
      rw [Insert_IngressRoute] at h
      split at h
      · next hc =>
        simp only [Option.some.injEq, Prod.mk.injEq] at h
        obtain ⟨rfl, rfl⟩ := h
        rw [Insert_IngressRoute]
        split
        · rfl
        · next hc2 => exact absurd hc hc2
      · next hc =>
        simp only [Option.some.injEq, Prod.mk.injEq] at h
        obtain ⟨rfl, rfl⟩ := h
        rw [Insert_IngressRoute]
        split
        · next hc2 => exact absurd hc2 hc
        · simp [Finmap.insert_insert]

theorem replace_keeps_latest_counterexample :
    (((KubernetesCache.empty "" []).Insert classOf
        (.Ingress (some ⟨⟨"bar", "default", []⟩, "v1"⟩))).bind fun r =>
      r.2.Insert classOf
        (.Ingress (some ⟨⟨"bar", "default", annotatedClass "nginx"⟩, "v2"⟩))).map
      (fun r => (r.1, r.2.entry .Ingress ⟨"bar", "default"⟩)) =
    some (false, some (.Ingress (some ⟨⟨"bar", "default", []⟩, "v1"⟩))) := by
  decide

/-- C8, as amended. Replace keeps the latest accepted content: for every store and every
two non-nil pointers `a` and `b` of one recognised kind `k` and one identity `i`, both
calls of `Insert(a)` followed by `Insert(b)` return; the second returns true exactly when
`b` passes the class filter (always, for a secret, service or TLS-delegation), and when it
does the partition of `k` holds exactly one entry under `i` and that entry is `b`. -/
theorem replace_keeps_latest (g : AnnotationMap → String) (kc : KubernetesCache)
    (a b : Object) (k : Kind) (i : Meta)
    (ha : a.key? = some (k, i)) (hb : b.key? = some (k, i)) :
    ∃ ra kc1 rb kc2, kc.Insert g a = some (ra, kc1) ∧ kc1.Insert g b = some (rb, kc2) ∧
      (rb = true ↔ ∀ c, b.ingressClassOf? g = some c → c = "" ∨ c = kc.ingressClass) ∧
      (rb = true → kc2.entry k i = some b ∧ kc2.count k i = 1) := by
  obtain ⟨ra, kc1, h1⟩ := Insert_isSome g kc a (isNilPointer_of_key a k i ha)
  obtain ⟨rb, kc2, h2⟩ := Insert_isSome g kc1 b (isNilPointer_of_key b k i hb)
  refine ⟨ra, kc1, rb, kc2, h1, h2, ?_, fun hr => ?_⟩
  · rw [← Insert_ingressClass g kc a ra kc1 h1]
    exact Insert_accepted_iff g kc1 b k i hb rb kc2 h2
  · have he : kc2.entry k i = some b := by
      rw [entry_Insert g kc1 b rb kc2 h2 k i, if_pos ⟨hr, hb⟩]
    exact ⟨he, count_of_entry kc2 k i b he⟩

theorem replace_keeps_latest_witness :
    ∃ ra kc1 rb kc2,
      (KubernetesCache.empty "" []).Insert classOf
        (.Secret (some ⟨⟨"foo", "default", []⟩, "v1"⟩)) = some (ra, kc1) ∧
      kc1.Insert classOf
        (.Secret (some ⟨⟨"foo", "default", annotatedClass "nginx"⟩, "v2"⟩)) = some (rb, kc2) ∧
      (rb = true ↔ ∀ c,
        (Object.Secret (some ⟨⟨"foo", "default", annotatedClass "nginx"⟩, "v2"⟩)).ingressClassOf?
            classOf = some c →
          c = "" ∨ c = (KubernetesCache.empty "" []).ingressClass) ∧
      (rb = true →
        kc2.entry .Secret ⟨"foo", "default"⟩ =
            some (.Secret (some ⟨⟨"foo", "default", annotatedClass "nginx"⟩, "v2"⟩)) ∧
          kc2.count .Secret ⟨"foo", "default"⟩ = 1) :=
  replace_keeps_latest classOf (KubernetesCache.empty "" [])
    (.Secret (some ⟨⟨"foo", "default", []⟩, "v1"⟩))
    (.Secret (some ⟨⟨"foo", "default", annotatedClass "nginx"⟩, "v2"⟩))
    .Secret ⟨"foo", "default"⟩ rfl rfl

/-- C9. Insert is idempotent: for every store and every argument that is not a nil
pointer, `Insert` returns, a second `Insert` of the same argument returns the same boolean
and leaves the cache the first call left, and so does any number of further repetitions;
in particular every partition has the size it had after the first call. -/
theorem Insert_idempotent (g : AnnotationMap → String) (kc : KubernetesCache) (o : Object)
    (h : o.isNilPointer = false) :
    ∃ b kc1, kc.Insert g o = some (b, kc1) ∧ kc1.Insert g o = some (b, kc1) ∧
      ∀ n, ∃ kcn, kc.InsertRepeated g o n = some (b, kcn) ∧ kcn = kc1 ∧
        ∀ k, kcn.len k = kc1.len k := by
  obtain ⟨b, kc1, h1⟩ := Insert_isSome g kc o h
  have h2 := Insert_Insert g kc o b kc1 h1
  refine ⟨b, kc1, h1, h2, fun n => ⟨kc1, ?_, rfl, fun _ => rfl⟩⟩
  induction n with
  | zero => exact h1
  | succ n ih => simp [KubernetesCache.InsertRepeated, ih, h2]

theorem Insert_idempotent_witness :
    ∃ b kc1,
      (KubernetesCache.empty "" []).Insert classOf
        (.Ingress (some ⟨⟨"bar", "default", []⟩, ""⟩)) = some (b, kc1) ∧
      kc1.Insert classOf (.Ingress (some ⟨⟨"bar", "default", []⟩, ""⟩)) = some (b, kc1) ∧
      ∀ n, ∃ kcn, (KubernetesCache.empty "" []).InsertRepeated classOf
          (.Ingress (some ⟨⟨"bar", "default", []⟩, ""⟩)) n = some (b, kcn) ∧ kcn = kc1 ∧
        ∀ k, kcn.len k = kc1.len k :=
  Insert_idempotent classOf (KubernetesCache.empty "" [])
    (.Ingress (some ⟨⟨"bar", "default", []⟩, ""⟩)) rfl

/-- C10. Remove symmetry: for a non-nil pointer `o` of a recognised kind, a `Remove(o)`
right after an `Insert(o)` that returned true returns true, and a second `Remove(o)`
returns false; and `Remove(o)` returns false on every store reached from the empty store
by calls none of which is an `Insert` of an object of the kind and identity of `o`, the
empty store itself among them. -/
theorem Remove_symmetry (g : AnnotationMap → String) (o : Object) (k : Kind) (i : Meta)
    (h : o.key? = some (k, i)) :
    (∀ kc kc1 : KubernetesCache, kc.Insert g o = some (true, kc1) →
      ∃ kc2 kc3, kc1.Remove o = some (true, kc2) ∧ kc2.Remove o = some (false, kc3)) ∧
    (∀ (cls : String) (ns : List String) (calls : List Call) (log : List (Call × Bool))
        (kc : KubernetesCache),
      (KubernetesCache.empty cls ns).history g calls = some (log, kc) →
      (∀ o1, Call.Insert o1 ∈ calls → o1.key? ≠ some (k, i)) →
      ∃ kc1, kc.Remove o = some (false, kc1)) ∧
    (∀ cls ns, ∃ kc1, (KubernetesCache.empty cls ns).Remove o = some (false, kc1)) := by
  have never : ∀ (cls : String) (ns : List String) (calls : List Call)
      (log : List (Call × Bool)) (kc : KubernetesCache),
      (KubernetesCache.empty cls ns).history g calls = some (log, kc) →
      (∀ o1, Call.Insert o1 ∈ calls → o1.key? ≠ some (k, i)) →
      ∃ kc1, kc.Remove o = some (false, kc1) := by
    intro cls ns calls log kc ht hnever
    have hcalls := history_calls g _ calls log kc ht
    have he : kc.entry k i = none := by
      rw [entry_history g cls ns calls log kc ht k i]
      apply lastWrite_none
      intro o1 ho1
      apply hnever o1
      rw [List.map_reverse, List.mem_reverse, hcalls] at ho1
      exact ho1
    obtain ⟨kc1, hr, _⟩ := Remove_of_key kc o k i h
    rw [he] at hr
    exact ⟨kc1, hr⟩
  refine ⟨fun kc kc1 hi => ?_, never, fun cls ns => ?_⟩
  · have he : kc1.entry k i = some o := by
      rw [entry_Insert g kc o true kc1 hi k i, if_pos ⟨rfl, h⟩]
    obtain ⟨kc2, hr2, hn2, _⟩ := Remove_of_key kc1 o k i h
    obtain ⟨kc3, hr3, _⟩ := Remove_of_key kc2 o k i h
    rw [he] at hr2
    rw [hn2] at hr3
    exact ⟨kc2, kc3, hr2, hr3⟩
  · exact never cls ns [] [] _ rfl (by simp)

theorem Remove_symmetry_witness :
    (∀ kc kc1 : KubernetesCache,
      kc.Insert classOf (.Secret (some ⟨⟨"foo", "default", []⟩, ""⟩)) = some (true, kc1) →
      ∃ kc2 kc3, kc1.Remove (.Secret (some ⟨⟨"foo", "default", []⟩, ""⟩)) = some (true, kc2) ∧
        kc2.Remove (.Secret (some ⟨⟨"foo", "default", []⟩, ""⟩)) = some (false, kc3)) ∧
    (∀ (cls : String) (ns : List String) (calls : List Call) (log : List (Call × Bool))
        (kc : KubernetesCache),
      (KubernetesCache.empty cls ns).history classOf calls = some (log, kc) →
      (∀ o1, Call.Insert o1 ∈ calls → o1.key? ≠ some (Kind.Secret, ⟨"foo", "default"⟩)) →
      ∃ kc1, kc.Remove (.Secret (some ⟨⟨"foo", "default", []⟩, ""⟩)) = some (false, kc1)) ∧
    (∀ cls ns, ∃ kc1, (KubernetesCache.empty cls ns).Remove
      (.Secret (some ⟨⟨"foo", "default", []⟩, ""⟩)) = some (false, kc1)) :=
  Remove_symmetry classOf (.Secret (some ⟨⟨"foo", "default", []⟩, ""⟩)) .Secret
    ⟨"foo", "default"⟩ rfl

theorem Insert_config (g : AnnotationMap → String) (kc : KubernetesCache) (o : Object)
    (b : Bool) (kc1 : KubernetesCache) (h : kc.Insert g o = some (b, kc1)) :
    kc1.IngressClass = kc.IngressClass ∧
      kc1.IngressRouteRootNamespaces = kc.IngressRouteRootNamespaces := by
  cases o with
  | DeletedFinalStateUnknown _ _ =>
    simp [KubernetesCache.Insert] at h
    rw [h.2]; exact ⟨rfl, rfl⟩
  | Other _ =>
    simp [KubernetesCache.Insert] at h
    rw [h.2]; exact ⟨rfl, rfl⟩
  | Secret p =>
    cases p with
    | none => simp [KubernetesCache.Insert] at h
    | some o =>
      rw [Insert_Secret] at h
      simp only [Option.some.injEq, Prod.mk.injEq] at h
      rw [← h.2]; exact ⟨rfl, rfl⟩
  | Service p =>
    cases p with
    | none => simp [KubernetesCache.Insert] at h
    | some o =>
      rw [Insert_Service] at h
      simp only [Option.some.injEq, Prod.mk.injEq] at h
      rw [← h.2]; exact ⟨rfl, rfl⟩
  | TLSCertificateDelegation p =>
    cases p with
    | none => simp [KubernetesCache.Insert] at h
    | some o =>
      rw [Insert_TLSCertificateDelegation] at h
      simp only [Option.some.injEq, Prod.mk.injEq] at h
      rw [← h.2]; exact ⟨rfl, rfl⟩
  | Ingress p =>
    cases p with
    | none => simp [KubernetesCache.Insert] at h
    | some o =>
      rw [Insert_Ingress] at h
      split at h <;> simp only [Option.some.injEq, Prod.mk.injEq] at h <;>
        (rw [← h.2]; exact ⟨rfl, rfl⟩)
  | IngressRoute p =>
    cases p with
    | none => simp [KubernetesCache.Insert] at h
    | some o =>
      rw [Insert_IngressRoute] at h
      split at h <;> simp only [Option.some.injEq, Prod.mk.injEq] at h <;>
        (rw [← h.2]; exact ⟨rfl, rfl⟩)

theorem remove_config (kc : KubernetesCache) (o : Object)
    (b : Bool) (kc1 : KubernetesCache) (h : kc.remove o = some (b, kc1)) :
    kc1.IngressClass = kc.IngressClass ∧
      kc1.IngressRouteRootNamespaces = kc.IngressRouteRootNamespaces := by
  cases o with
  | DeletedFinalStateUnknown _ _ =>
    simp [KubernetesCache.remove] at h
    rw [h.2]; exact ⟨rfl, rfl⟩
  | Other _ =>
    simp [KubernetesCache.remove] at h
    rw [h.2]; exact ⟨rfl, rfl⟩
  | Secret p =>
    cases p with
    | none => simp [KubernetesCache.remove] at h
    | some o =>
      rw [remove_Secret] at h
      simp only [Option.some.injEq, Prod.mk.injEq] at h
      rw [← h.2]; exact ⟨rfl, rfl⟩
  | Service p =>
    cases p with
    | none => simp [KubernetesCache.remove] at h
    | some o =>
      rw [remove_Service] at h
      simp only [Option.some.injEq, Prod.mk.injEq] at h
      rw [← h.2]; exact ⟨rfl, rfl⟩
  | TLSCertificateDelegation p =>
    cases p with
    | none => simp [KubernetesCache.remove] at h
    | some o =>
      rw [remove_TLSCertificateDelegation] at h
      simp only [Option.some.injEq, Prod.mk.injEq] at h
      rw [← h.2]; exact ⟨rfl, rfl⟩
  | Ingress p =>
    cases p with
    | none => simp [KubernetesCache.remove] at h
    | some o =>
      rw [remove_Ingress] at h
      simp only [Option.some.injEq, Prod.mk.injEq] at h
      rw [← h.2]; exact ⟨rfl, rfl⟩
  | IngressRoute p =>
    cases p with
    | none => simp [KubernetesCache.remove] at h
    | some o =>
      rw [remove_IngressRoute] at h
      simp only [Option.some.injEq, Prod.mk.injEq] at h
      rw [← h.2]; exact ⟨rfl, rfl⟩

theorem Remove_config (kc : KubernetesCache) (o : Object)
    (b : Bool) (kc1 : KubernetesCache) (h : kc.Remove o = some (b, kc1)) :
    kc1.IngressClass = kc.IngressClass ∧
      kc1.IngressRouteRootNamespaces = kc.IngressRouteRootNamespaces := by
  rw [Remove_eq_remove_unwrap] at h
  exact remove_config kc _ b kc1 h

/-- C11. Partition independence: for a non-nil pointer `o` of kind `k` and identity `i`,
`Insert(o)` and `Remove(o)` both return and leave as it was the entry of every partition
under every kind and identity other than `(k, i)`, so in particular every entry of another
kind under the same name and namespace, as well as the ingress class and the list of
root namespaces of the store. -/
theorem partition_independence (g : AnnotationMap → String) (kc : KubernetesCache)
    (o : Object) (k : Kind) (i : Meta) (h : o.key? = some (k, i)) :
    (∃ b kc1, kc.Insert g o = some (b, kc1) ∧
      (∀ k1 i1, (k1, i1) ≠ (k, i) → kc1.entry k1 i1 = kc.entry k1 i1) ∧
      kc1.IngressClass = kc.IngressClass ∧
      kc1.IngressRouteRootNamespaces = kc.IngressRouteRootNamespaces) ∧
    (∃ b kc1, kc.Remove o = some (b, kc1) ∧
      (∀ k1 i1, (k1, i1) ≠ (k, i) → kc1.entry k1 i1 = kc.entry k1 i1) ∧
      kc1.IngressClass = kc.IngressClass ∧
      kc1.IngressRouteRootNamespaces = kc.IngressRouteRootNamespaces) := by
  constructor
  · obtain ⟨b, kc1, h1⟩ := Insert_isSome g kc o (isNilPointer_of_key o k i h)
    refine ⟨b, kc1, h1, fun k1 i1 hne => ?_, Insert_config g kc o b kc1 h1⟩
    rw [entry_Insert g kc o b kc1 h1 k1 i1, if_neg]
    rintro ⟨_, hk⟩
    rw [h] at hk
    exact hne (Option.some.inj hk).symm
  · obtain ⟨kc1, h1, _⟩ := Remove_of_key kc o k i h
    refine ⟨_, kc1, h1, fun k1 i1 hne => ?_, Remove_config kc o _ kc1 h1⟩
    rw [entry_Remove kc o _ kc1 h1 k1 i1, unwrap_of_key o k i h, if_neg]
    intro hk
    rw [h] at hk
    exact hne (Option.some.inj hk).symm

theorem partition_independence_witness :
    (∃ b kc1, (KubernetesCache.empty "" []).Insert classOf
        (.Secret (some ⟨⟨"foo", "default", []⟩, ""⟩)) = some (b, kc1) ∧
      (∀ k1 i1, (k1, i1) ≠ (Kind.Secret, (⟨"foo", "default"⟩ : Meta)) →
        kc1.entry k1 i1 = (KubernetesCache.empty "" []).entry k1 i1) ∧
      kc1.IngressClass = (KubernetesCache.empty "" []).IngressClass ∧
      kc1.IngressRouteRootNamespaces =
        (KubernetesCache.empty "" []).IngressRouteRootNamespaces) ∧
    (∃ b kc1, (KubernetesCache.empty "" []).Remove
        (.Secret (some ⟨⟨"foo", "default", []⟩, ""⟩)) = some (b, kc1) ∧
      (∀ k1 i1, (k1, i1) ≠ (Kind.Secret, (⟨"foo", "default"⟩ : Meta)) →
        kc1.entry k1 i1 = (KubernetesCache.empty "" []).entry k1 i1) ∧
      kc1.IngressClass = (KubernetesCache.empty "" []).IngressClass ∧
      kc1.IngressRouteRootNamespaces =
        (KubernetesCache.empty "" []).IngressRouteRootNamespaces) :=
  partition_independence classOf (KubernetesCache.empty "" [])
    (.Secret (some ⟨⟨"foo", "default", []⟩, ""⟩)) .Secret ⟨"foo", "default"⟩ rfl

theorem Remove_isSome (kc : KubernetesCache) (o : Object)
    (h : o.unwrap.isNilPointer = false) : ∃ b kc1, kc.Remove o = some (b, kc1) := by
  have := call_isSome (fun _ => "") kc (.Remove o) h
  obtain ⟨r, hr⟩ := Option.isSome_iff_exists.mp this
  exact ⟨r.1, r.2, hr⟩

theorem remove_of_isNilPointer (kc : KubernetesCache) (o : Object)
    (h : o.isNilPointer = true) : kc.remove o = none := by
  cases o with
  | DeletedFinalStateUnknown _ _ => simp [Object.isNilPointer] at h
  | Other _ => simp [Object.isNilPointer] at h
  | _ p => cases p <;> simp_all [KubernetesCache.remove, Object.isNilPointer]

theorem never_fail_counterexample :
    (KubernetesCache.empty "" []).Insert classOf (.Secret none) = none ∧
    (KubernetesCache.empty "" []).Remove (.Secret none) = none ∧
    (KubernetesCache.empty "" []).Remove
      (.DeletedFinalStateUnknown "default/foo" (.Ingress none)) = none := by
  decide

/-- C12, as amended. `Insert` and `Remove` return a boolean on every store, freshly
created or not, exactly for the arguments that make them read no field through a nil
pointer: `Insert` returns unless its argument is a nil pointer of one of the five
recognised types, and `Remove` returns unless its argument, with tombstones of any depth
taken off, is such a nil pointer; on a nil pointer the call does not return. -/
theorem never_fail_unless_nil (g : AnnotationMap → String) (kc : KubernetesCache)
    (o : Object) :
    (o.isNilPointer = false → ∃ b kc1, kc.Insert g o = some (b, kc1)) ∧
    (o.isNilPointer = true → kc.Insert g o = none) ∧
    (o.unwrap.isNilPointer = false → ∃ b kc1, kc.Remove o = some (b, kc1)) ∧
    (o.unwrap.isNilPointer = true → kc.Remove o = none) := by
  refine ⟨Insert_isSome g kc o, Insert_of_isNilPointer g kc o, Remove_isSome kc o, fun h => ?_⟩
  rw [Remove_eq_remove_unwrap]
  exact remove_of_isNilPointer kc _ h

theorem never_fail_unless_nil_witness :
    (∃ b kc1, (KubernetesCache.empty "" []).Insert classOf
      (.DeletedFinalStateUnknown "k" (.Other "string")) = some (b, kc1)) ∧
    (∃ b kc1, (KubernetesCache.empty "" []).Remove
      (.DeletedFinalStateUnknown "k" (.DeletedFinalStateUnknown "k" (.Other "string"))) =
        some (b, kc1)) ∧
    (KubernetesCache.empty "" []).Insert classOf (.Service none) = none ∧
    (KubernetesCache.empty "" []).Remove (.DeletedFinalStateUnknown "k" (.Service none)) =
      none :=
  ⟨(never_fail_unless_nil classOf (KubernetesCache.empty "" [])
      (.DeletedFinalStateUnknown "k" (.Other "string"))).1 rfl,
   (never_fail_unless_nil classOf (KubernetesCache.empty "" [])
      (.DeletedFinalStateUnknown "k" (.DeletedFinalStateUnknown "k" (.Other "string")))).2.2.1
      rfl,
   (never_fail_unless_nil classOf (KubernetesCache.empty "" []) (.Service none)).2.1 rfl,
   (never_fail_unless_nil classOf (KubernetesCache.empty "" [])
      (.DeletedFinalStateUnknown "k" (.Service none))).2.2.2 rfl⟩

theorem GoMap.len_eq_of_index {V : Type} (m1 m2 : GoMap V)
    (h : ∀ i, m1.index i = m2.index i) : m1.len = m2.len := by
  have key : ∀ f : Finmap fun _ : Meta => V, (∀ i, Finmap.lookup i f = none) → f = ∅ := by
    intro f hf
    apply Finmap.ext_lookup
    intro x
    rw [hf x, Finmap.lookup_empty]
  cases m1 with
  | none =>
    cases m2 with
    | none => rfl
    | some f2 =>
      have : f2 = ∅ := key f2 (fun i => by simpa [GoMap.index] using (h i).symm)
      subst this
      simp [GoMap.len]
  | some f1 =>
    cases m2 with
    | none =>
      have : f1 = ∅ := key f1 (fun i => by simpa [GoMap.index] using h i)
      subst this
      simp [GoMap.len]
    | some f2 =>
      have : f1 = f2 := Finmap.ext_lookup (fun i => by simpa [GoMap.index] using h i)
      rw [this]

theorem len_eq_of_entry (kc1 kc2 : KubernetesCache) (k : Kind)
    (h : ∀ i, kc1.entry k i = kc2.entry k i) : kc1.len k = kc2.len k := by
  cases k <;> simp only [KubernetesCache.len] <;> apply GoMap.len_eq_of_index <;> intro i <;>
    have hi := h i <;> simp only [KubernetesCache.entry] at hi
  · exact Option.map_injective (fun a b hab => by injection hab with h1; injection h1) hi
  · exact Option.map_injective (fun a b hab => by injection hab with h1; injection h1) hi
  · exact Option.map_injective (fun a b hab => by injection hab with h1; injection h1) hi
  · exact Option.map_injective (fun a b hab => by injection hab with h1; injection h1) hi
  · exact Option.map_injective (fun a b hab => by injection hab with h1; injection h1) hi

/-- C18. Insert/Remove round trip: on a store holding no entry under the kind `k` and
identity `i` of a non-nil pointer `o`, when `Insert(o)` returns true the `Remove(o)` that
follows returns true and leaves every partition with the contents, entry by entry and in
size, that it had before the `Insert`, and the configuration as it was. -/
theorem Insert_Remove_round_trip (g : AnnotationMap → String) (kc : KubernetesCache)
    (o : Object) (k : Kind) (i : Meta) (h : o.key? = some (k, i))
    (habsent : kc.entry k i = none) (kc1 : KubernetesCache)
    (hins : kc.Insert g o = some (true, kc1)) :
    ∃ kc2, kc1.Remove o = some (true, kc2) ∧
      (∀ k1 i1, kc2.entry k1 i1 = kc.entry k1 i1) ∧
      (∀ k1, kc2.len k1 = kc.len k1) ∧
      kc2.IngressClass = kc.IngressClass ∧
      kc2.IngressRouteRootNamespaces = kc.IngressRouteRootNamespaces := by
  have he : kc1.entry k i = some o := by
    rw [entry_Insert g kc o true kc1 hins k i, if_pos ⟨rfl, h⟩]
  obtain ⟨kc2, hr, hn, _⟩ := Remove_of_key kc1 o k i h
  rw [he] at hr
  have hent : ∀ k1 i1, kc2.entry k1 i1 = kc.entry k1 i1 := by
    intro k1 i1
    by_cases hk : (k1, i1) = (k, i)
    · obtain ⟨rfl, rfl⟩ := Prod.mk.inj hk
      rw [hn, habsent]
    · rw [entry_Remove kc1 o _ kc2 hr k1 i1, unwrap_of_key o k i h, if_neg,
        entry_Insert g kc o true kc1 hins k1 i1, if_neg]
      · rintro ⟨_, hk1⟩
        rw [h] at hk1
        exact hk (Option.some.inj hk1).symm
      · intro hk1
        rw [h] at hk1
        exact hk (Option.some.inj hk1).symm
  have c1 := Insert_config g kc o true kc1 hins
  have c2 := Remove_config kc1 o _ kc2 hr
  exact ⟨kc2, hr, hent, fun k1 => len_eq_of_entry kc2 kc k1 (hent k1),
    c2.1.trans c1.1, c2.2.trans c1.2⟩

theorem Insert_Remove_round_trip_witness :
    ∃ kc2, (⟨[], "", some (Finmap.singleton ⟨"bar", "default"⟩ ⟨⟨"bar", "default", []⟩, ""⟩),
        none, none, none, none⟩ : KubernetesCache).Remove
        (.Ingress (some ⟨⟨"bar", "default", []⟩, ""⟩)) = some (true, kc2) ∧
      (∀ k1 i1, kc2.entry k1 i1 = (KubernetesCache.empty "" []).entry k1 i1) ∧
      (∀ k1, kc2.len k1 = (KubernetesCache.empty "" []).len k1) ∧
      kc2.IngressClass = (KubernetesCache.empty "" []).IngressClass ∧
      kc2.IngressRouteRootNamespaces =
        (KubernetesCache.empty "" []).IngressRouteRootNamespaces :=
  Insert_Remove_round_trip classOf (KubernetesCache.empty "" [])
    (.Ingress (some ⟨⟨"bar", "default", []⟩, ""⟩)) .Ingress ⟨"bar", "default"⟩ rfl rfl _
    (by decide)

/-- A property of the cache that every returning call preserves holds after every history
that returns. -/
theorem history_invariant (g : AnnotationMap → String) (P : KubernetesCache → Prop)
    (step : ∀ kc c b kc1, P kc → kc.call g c = some (b, kc1) → P kc1)
    (kc : KubernetesCache) (cs : List Call) (log : List (Call × Bool))
    (kc1 : KubernetesCache) (h : kc.history g cs = some (log, kc1)) (h0 : P kc) : P kc1 := by
  induction cs generalizing kc log with
  | nil =>
    simp only [KubernetesCache.history, Option.some.injEq, Prod.mk.injEq] at h
    rw [← h.2]; exact h0
  | cons d ds ih =>
    simp only [KubernetesCache.history] at h
    cases hd : kc.call g d with
    | none => simp [hd] at h
    | some r =>
      simp only [hd, Option.some_bind] at h
      cases ht : r.2.history g ds with
      | none => simp [ht] at h
      | some t =>
        obtain ⟨tlog, tkc⟩ := t
        simp only [ht, Option.map_some', Option.some.injEq, Prod.mk.injEq] at h
        obtain ⟨_, rfl⟩ := h
        exact ih r.2 tlog ht (step kc d r.1 r.2 h0 hd)

/-- C19. Admission invariant: after every finite sequence of `Insert` and `Remove` calls
on the empty store of class configuration `cls`, none of them a nil dereference, the calls
have all returned and every object held in the HTTP-ingress partition and in the
ingress-route partition has an ingress-class string that is empty or equal to the
effective class of the store. -/
theorem admission_invariant (g : AnnotationMap → String) (cls : String) (ns : List String)
    (calls : List Call) (h : ∀ c ∈ calls, c.panics = false) :
    ∃ log kc1, (KubernetesCache.empty cls ns).history g calls = some (log, kc1) ∧
      (∀ i o, kc1.ingresses.index i = some o →
        g o.ObjectMeta.Annotations = "" ∨
          g o.ObjectMeta.Annotations = (if cls = "" then "contour" else cls)) ∧
      (∀ i o, kc1.ingressroutes.index i = some o →
        g o.ObjectMeta.Annotations = "" ∨
          g o.ObjectMeta.Annotations = (if cls = "" then "contour" else cls)) := by
  have hs := history_isSome g (KubernetesCache.empty cls ns) calls h
  obtain ⟨⟨log, kc1⟩, ht⟩ := Option.isSome_iff_exists.mp hs
  have inv := history_invariant g
    (fun kc => kc.ingressClass = (if cls = "" then "contour" else cls) ∧
      ∀ k i o, kc.entry k i = some o → ∀ c, o.ingressClassOf? g = some c →
        c = "" ∨ c = (if cls = "" then "contour" else cls))
    (by
      rintro kc c b kc2 ⟨hcls, hP⟩ hc
      cases c with
      | Insert o =>
        simp only [KubernetesCache.call] at hc
        refine ⟨(Insert_ingressClass g kc o b kc2 hc).trans hcls, fun k i o1 he => ?_⟩
        rw [entry_Insert g kc o b kc2 hc k i] at he
        split at he
        · next hacc =>
          obtain rfl := Option.some.inj he
          rw [← hcls]
          exact (Insert_accepted_iff g kc o k i hacc.2 b kc2 hc).mp hacc.1
        · exact hP k i o1 he
      | Remove o =>
        simp only [KubernetesCache.call] at hc
        have hcfg := Remove_config kc o b kc2 hc
        refine ⟨?_, fun k i o1 he => ?_⟩
        · rw [ingressClass_eq, hcfg.1, ← ingressClass_eq]; exact hcls
        · rw [entry_Remove kc o b kc2 hc k i] at he
          split at he
          · simp at he
          · exact hP k i o1 he)
    (KubernetesCache.empty cls ns) calls log kc1 ht
    ⟨rfl, fun k i o he => by cases k <;> simp [KubernetesCache.entry, KubernetesCache.empty,
      GoMap.index] at he⟩
  refine ⟨log, kc1, ht, fun i o ho => ?_, fun i o ho => ?_⟩
  · exact inv.2 .Ingress i (.Ingress (some o)) (by simp [KubernetesCache.entry, ho]) _ rfl
  · exact inv.2 .IngressRoute i (.IngressRoute (some o))
      (by simp [KubernetesCache.entry, ho]) _ rfl

theorem admission_invariant_witness :
    ∃ log kc1, (KubernetesCache.empty "" []).history classOf
        [.Insert (.Ingress (some ⟨⟨"bar", "default", annotatedClass "nginx"⟩, ""⟩)),
         .Insert (.Ingress (some ⟨⟨"bar", "default", annotatedClass "contour"⟩, ""⟩)),
         .Remove (.Secret (some ⟨⟨"foo", "default", []⟩, ""⟩))] = some (log, kc1) ∧
      (∀ i o, kc1.ingresses.index i = some o →
        classOf o.ObjectMeta.Annotations = "" ∨
          classOf o.ObjectMeta.Annotations = (if "" = "" then "contour" else "")) ∧
      (∀ i o, kc1.ingressroutes.index i = some o →
        classOf o.ObjectMeta.Annotations = "" ∨
          classOf o.ObjectMeta.Annotations = (if "" = "" then "contour" else "")) :=
  admission_invariant classOf "" [] _ (by decide)

/-- C20. Key consistency invariant: after every finite sequence of `Insert` and `Remove`
calls on the empty store, none of them a nil dereference, the calls have all returned and
every entry of every partition is stored under the key made of the stored object's own
name and namespace, in the partition of its own kind. -/
theorem key_consistency (g : AnnotationMap → String) (cls : String) (ns : List String)
    (calls : List Call) (h : ∀ c ∈ calls, c.panics = false) :
    ∃ log kc1, (KubernetesCache.empty cls ns).history g calls = some (log, kc1) ∧
      ∀ k i o, kc1.entry k i = some o → o.key? = some (k, i) := by
  have hs := history_isSome g (KubernetesCache.empty cls ns) calls h
  obtain ⟨⟨log, kc1⟩, ht⟩ := Option.isSome_iff_exists.mp hs
  refine ⟨log, kc1, ht, ?_⟩
  refine history_invariant g (fun kc => ∀ k i o, kc.entry k i = some o → o.key? = some (k, i))
    ?_ (KubernetesCache.empty cls ns) calls log kc1 ht
    (fun k i o he => by cases k <;> simp [KubernetesCache.entry, KubernetesCache.empty,
      GoMap.index] at he)
  intro kc c b kc2 hP hc k i o1 he
  cases c with
  | Insert o =>
    simp only [KubernetesCache.call] at hc
    rw [entry_Insert g kc o b kc2 hc k i] at he
    split at he
    · next hacc =>
      obtain rfl := Option.some.inj he
      exact hacc.2
    · exact hP k i o1 he
  | Remove o =>
    simp only [KubernetesCache.call] at hc
    rw [entry_Remove kc o b kc2 hc k i] at he
    split at he
    · simp at he
    · exact hP k i o1 he

theorem key_consistency_witness :
    ∃ log kc1, (KubernetesCache.empty "" []).history classOf
        [.Insert (.Secret (some ⟨⟨"foo", "default", []⟩, ""⟩)),
         .Insert (.Service (some ⟨⟨"foo", "default", []⟩, ""⟩)),
         .Remove (.Secret (some ⟨⟨"foo", "kube-system", []⟩, ""⟩))] = some (log, kc1) ∧
      ∀ k i o, kc1.entry k i = some o → o.key? = some (k, i) :=
  key_consistency classOf "" [] _ (by decide)

end Dag

namespace Debug

/-! ## The walk as a list of calls -/

theorem foldlM_children (d : DAG) (fuel : Nat) (p : Vertex)
    (ih : ∀ caller s c, visit d fuel caller s c =
      (events d fuel caller c).map fun E => ⟨E.foldl (ctx.step d) s.c, s.log ++ E⟩)
    (cs : List Vertex) (s0 : Walk) :
    cs.foldlM
      (fun s child =>
        (visit d fuel (some p) s child).map fun s =>
          (⟨s.c.writeEdge p child, s.log ++ [Event.edge p child]⟩ : Walk)) s0 =
    (eventsOfChildren (events d fuel (some p)) p cs).map fun R =>
      ⟨R.foldl (ctx.step d) s0.c, s0.log ++ R⟩ := by
  induction cs generalizing s0 with
  | nil => simp [eventsOfChildren]
  | cons c cs ihc =>
    simp only [List.foldlM_cons, eventsOfChildren]
    rw [ih (some p) s0 c]
    cases hE : events d fuel (some p) c with
    | none => simp
    | some E =>
      simp only [Option.map_some', Option.bind_eq_bind, Option.some_bind]
      rw [ihc]
      cases eventsOfChildren (events d fuel (some p)) p cs with
      | none => simp
      | some R => simp [List.foldl_append, ctx.step]

theorem visit_eq (d : DAG) (fuel : Nat) (caller : Option Vertex) (s : Walk) (p : Vertex) :
    visit d fuel caller s p =
      (events d fuel caller p).map fun E => ⟨E.foldl (ctx.step d) s.c, s.log ++ E⟩ := by
  induction fuel generalizing caller s p with
  | zero => simp [visit, events]
  | succ fuel ih =>
    simp only [visit, events]
    rw [foldlM_children d fuel p ih]
    cases eventsOfChildren (events d fuel (some p)) p (d.Visit p) with
    | none => simp
    | some R => simp [ctx.step]

theorem foldlM_roots (d : DAG) (fuel : Nat) (rs : List Vertex) (s0 : Walk) :
    rs.foldlM (fun s root => visit d fuel none s root) s0 =
      (eventsOfRoots d fuel rs).map fun R => ⟨R.foldl (ctx.step d) s0.c, s0.log ++ R⟩ := by
  induction rs generalizing s0 with
  | nil => simp [eventsOfRoots]
  | cons r rs ih =>
    simp only [List.foldlM_cons, eventsOfRoots]
    rw [visit_eq d fuel none s0 r]
    cases events d fuel none r with
    | none => simp
    | some E =>
      simp only [Option.map_some', Option.bind_eq_bind, Option.some_bind]
      rw [ih]
      cases eventsOfRoots d fuel rs with
      | none => simp
      | some R => simp [List.foldl_append]

theorem writeDot_eq (d : DAG) (fuel : Nat) :
    writeDot d fuel = (eventsOfRoots d fuel d.roots).map fun E =>
      ⟨{ E.foldl (ctx.step d) ⟨[Line.header], ∅, ∅⟩ with
          w := (E.foldl (ctx.step d) ⟨[Line.header], ∅, ∅⟩).w ++ [Line.footer] }, E⟩ := by
  simp only [writeDot, foldlM_roots]
  cases eventsOfRoots d fuel d.roots with
  | none => simp
  | some R => simp


/-! ## The output as the first occurrences of the lines of the calls -/

theorem step_w (d : DAG) (c : ctx) (h : c.Inv d) (e : Event) :
    (c.step d e).w = appendNew c.w (e.line d) ∧ (c.step d e).Inv d := by
  obtain ⟨hn, he⟩ := h
  cases e with
  | visit caller v =>
    simp only [ctx.step, ctx.writeVertex, Event.line, appendNew]
    by_cases hv : v ∈ c.nodes
    · rw [if_pos hv, if_pos ((hn v).mp hv)]
      exact ⟨rfl, hn, he⟩
    · rw [if_neg hv, if_neg (fun hm => hv ((hn v).mpr hm))]
      refine ⟨rfl, fun v1 => ?_, fun p ch => ?_⟩
      · simp only [Finset.mem_insert, List.mem_append, List.mem_singleton, Line.node.injEq]
        rw [hn v1]
        constructor
        · rintro (rfl | h1)
          · exact Or.inr ⟨rfl, rfl⟩
          · exact Or.inl h1
        · rintro (h1 | ⟨rfl, _⟩)
          · exact Or.inr h1
          · exact Or.inl rfl
      · simp only [List.mem_append, List.mem_singleton]
        rw [he p ch]
        simp
  | edge p ch =>
    simp only [ctx.step, ctx.writeEdge, Event.line, appendNew]
    by_cases hv : pair.mk p ch ∈ c.edges
    · rw [if_pos hv, if_pos ((he p ch).mp hv)]
      exact ⟨rfl, hn, he⟩
    · rw [if_neg hv, if_neg (fun hm => hv ((he p ch).mpr hm))]
      refine ⟨rfl, fun v1 => ?_, fun p1 ch1 => ?_⟩
      · simp only [List.mem_append, List.mem_singleton]
        rw [hn v1]
        simp
      · simp only [Finset.mem_insert, List.mem_append, List.mem_singleton, Line.edge.injEq,
          pair.mk.injEq]
        rw [he p1 ch1]
        tauto

theorem foldl_step_w (d : DAG) (E : List Event) (c : ctx) (h : c.Inv d) :
    (E.foldl (ctx.step d) c).w = (E.map (Event.line d)).foldl appendNew c.w := by
  induction E generalizing c with
  | nil => rfl
  | cons e es ih =>
    obtain ⟨hw, hinv⟩ := step_w d c h e
    simp only [List.foldl_cons, List.map_cons]
    rw [ih _ hinv, hw]

theorem mem_foldl_appendNew (L w : List Line) (l : Line) :
    l ∈ L.foldl appendNew w ↔ l ∈ w ∨ l ∈ L := by
  induction L generalizing w with
  | nil => simp
  | cons x xs ih =>
    simp only [List.foldl_cons, ih, List.mem_cons]
    unfold appendNew
    split
    · next hx =>
      constructor
      · rintro (h | h)
        · exact Or.inl h
        · exact Or.inr (Or.inr h)
      · rintro (h | rfl | h)
        · exact Or.inl h
        · exact Or.inl hx
        · exact Or.inr h
    · simp only [List.mem_append, List.mem_singleton]
      tauto

theorem nodup_foldl_appendNew (L w : List Line) (h : w.Nodup) :
    (L.foldl appendNew w).Nodup := by
  induction L generalizing w with
  | nil => exact h
  | cons x xs ih =>
    simp only [List.foldl_cons]
    apply ih
    unfold appendNew
    split
    · exact h
    · next hx =>
      exact List.Nodup.append h (List.nodup_singleton x) (by simpa using hx)

theorem filter_foldl_appendNew (P : Line → Bool) (L w : List Line) :
    (L.foldl appendNew w).filter P = (L.filter P).foldl appendNew (w.filter P) := by
  induction L generalizing w with
  | nil => rfl
  | cons x xs ih =>
    simp only [List.foldl_cons, ih]
    by_cases hP : P x = true
    · rw [List.filter_cons_of_pos hP, List.foldl_cons]
      congr 1
      unfold appendNew
      by_cases hx : x ∈ w
      · rw [if_pos hx, if_pos (List.mem_filter.mpr ⟨hx, hP⟩)]
      · rw [if_neg hx, if_neg (fun hm => hx (List.mem_filter.mp hm).1)]
        simp [List.filter_append, hP]
    · rw [List.filter_cons_of_neg hP]
      congr 1
      unfold appendNew
      split
      · rfl
      · simp [List.filter_append, hP]

theorem foldl_appendNew_of_subset (L w : List Line) (h : ∀ l ∈ L, l ∈ w) :
    L.foldl appendNew w = w := by
  induction L with
  | nil => rfl
  | cons x xs ih =>
    simp only [List.foldl_cons]
    have hx : appendNew w x = w := by
      unfold appendNew
      rw [if_pos (h x (List.mem_cons_self _ _))]
    rw [hx]
    exact ih (fun l hl => h l (List.mem_cons_of_mem _ hl))

theorem foldl_appendNew_edges (p : Vertex) (xs : List Vertex) (w : List Line) :
    (xs.map (Line.edge p)).foldl appendNew w =
      w ++ ((firstOccurrences xs).filter fun y => decide (Line.edge p y ∉ w)).map
        (Line.edge p) := by
  induction xs generalizing w with
  | nil => simp [firstOccurrences]
  | cons x xs ih =>
    simp only [List.map_cons, List.foldl_cons, firstOccurrences]
    rw [ih]
    unfold appendNew
    by_cases hx : Line.edge p x ∈ w
    · rw [if_pos hx, List.filter_cons_of_neg (by simpa using hx), List.filter_filter]
      congr 2
      apply List.filter_congr
      intro y _
      by_cases hy : y = x
      · subst hy; simp [hx]
      · simp [hy]
    · rw [if_neg hx, List.filter_cons_of_pos (by simpa using hx), List.filter_filter]
      simp only [List.map_cons, List.append_assoc, List.singleton_append]
      congr 3
      apply List.filter_congr
      intro y _
      by_cases hy : y = x
      · subst hy; simp
      · simp [hy, hx]


/-! ## The calls of a walk -/

theorem visits_append (E F : List Event) : visits (E ++ F) = visits E ++ visits F := by
  induction E with
  | nil => rfl
  | cons e es ih => cases e <;> simp [visits, ih]

theorem edgesFrom_append (p : Vertex) (E F : List Event) :
    edgesFrom p (E ++ F) = edgesFrom p E ++ edgesFrom p F := by
  induction E with
  | nil => rfl
  | cons e es ih =>
    cases e with
    | visit _ _ => simp [edgesFrom, ih]
    | edge a b => by_cases h : a = p <;> simp [edgesFrom, ih, h]

theorem descents_append (p : Vertex) (E F : List Event) :
    descents p (E ++ F) = descents p E ++ descents p F := by
  induction E with
  | nil => rfl
  | cons e es ih =>
    cases e with
    | visit caller _ => by_cases h : caller = some p <;> simp [descents, ih, h]
    | edge _ _ => simp [descents, ih]

theorem copies_add (m n : Nat) (xs : List Vertex) :
    copies (m + n) xs = copies m xs ++ copies n xs := by
  induction m with
  | zero => simp [copies]
  | succ m ih => rw [Nat.succ_add, copies, ih, copies, List.append_assoc]

theorem mem_visits (E : List Event) (v : Vertex) :
    v ∈ visits E ↔ ∃ caller, Event.visit caller v ∈ E := by
  induction E with
  | nil => simp [visits]
  | cons e es ih =>
    cases e with
    | visit c u =>
      simp only [visits, List.mem_cons, ih, Event.visit.injEq]
      constructor
      · rintro (rfl | ⟨x, hx⟩)
        · exact ⟨c, Or.inl ⟨rfl, rfl⟩⟩
        · exact ⟨x, Or.inr hx⟩
      · rintro ⟨x, ⟨_, rfl⟩ | hx⟩
        · exact Or.inl rfl
        · exact Or.inr ⟨x, hx⟩
    | edge a b => simp [visits, ih]

theorem eventsOfChildren_cons (f : Vertex → Option (List Event)) (p c : Vertex)
    (cs : List Vertex) (R : List Event) :
    eventsOfChildren f p (c :: cs) = some R ↔
      ∃ E R1, f c = some E ∧ eventsOfChildren f p cs = some R1 ∧
        R = E ++ Event.edge p c :: R1 := by
  simp only [eventsOfChildren]
  cases f c with
  | none => simp
  | some E =>
    cases eventsOfChildren f p cs with
    | none => simp
    | some R1 => simp [eq_comm]

theorem events_succ (d : DAG) (fuel : Nat) (caller : Option Vertex) (p : Vertex)
    (E : List Event) :
    events d (fuel + 1) caller p = some E ↔
      ∃ R, eventsOfChildren (events d fuel (some p)) p (d.Visit p) = some R ∧
        E = Event.visit caller p :: R := by
  simp only [events]
  cases eventsOfChildren (events d fuel (some p)) p (d.Visit p) with
  | none => simp
  | some R => simp [eq_comm]

/-- Induction over the calls of a visit: a property of the calls of every visit follows
from its being passed on by the children loop and by the entry of a visit. -/
theorem events_induction (d : DAG)
    (P : Option Vertex → Vertex → List Event → Prop)
    (Q : Vertex → List Vertex → List Event → Prop)
    (hnil : ∀ p, Q p [] [])
    (hcons : ∀ fuel p c cs E R, c ∈ d.Visit p → events d fuel (some p) c = some E →
      P (some p) c E → Q p cs R → Q p (c :: cs) (E ++ Event.edge p c :: R))
    (hvisit : ∀ caller p R, Q p (d.Visit p) R → P caller p (Event.visit caller p :: R))
    (fuel : Nat) (caller : Option Vertex) (p : Vertex) (E : List Event)
    (h : events d fuel caller p = some E) : P caller p E := by
  induction fuel generalizing caller p E with
  | zero => simp [events] at h
  | succ fuel ih =>
    obtain ⟨R, hR, rfl⟩ := (events_succ d fuel caller p E).mp h
    apply hvisit
    have loop : ∀ cs : List Vertex, (∀ c ∈ cs, c ∈ d.Visit p) → ∀ R,
        eventsOfChildren (events d fuel (some p)) p cs = some R → Q p cs R := by
      intro cs
      induction cs with
      | nil =>
        intro _ R hR
        simp only [eventsOfChildren, Option.some.injEq] at hR
        rw [← hR]
        exact hnil p
      | cons c cs ihc =>
        intro hmem R hR
        obtain ⟨E, R1, hE, hR1, rfl⟩ := (eventsOfChildren_cons _ p c cs R).mp hR
        exact hcons fuel p c cs E R1 (hmem c (List.mem_cons_self _ _)) hE
          (ih (some p) c E hE)
          (ihc (fun x hx => hmem x (List.mem_cons_of_mem _ hx)) R1 hR1)
    exact loop (d.Visit p) (fun c hc => hc) R hR

theorem Reach.trans {d : DAG} {a b c : Vertex} (h1 : Reach d a b) (h2 : Reach d b c) :
    Reach d a c := by
  induction h1 with
  | refl _ => exact h2
  | step p x _ hx _ ih => exact Reach.step p x _ hx (ih h2)

theorem Reach.layer_le {d : DAG} (layer : Vertex → Nat)
    (hl : ∀ p c, c ∈ d.Visit p → layer c < layer p) {p v : Vertex} (h : Reach d p v) :
    layer v ≤ layer p := by
  induction h with
  | refl _ => exact Nat.le_refl _
  | step p c _ hc _ ih => exact Nat.le_of_lt (Nat.lt_of_le_of_lt ih (hl p c hc))

/-- Every vertex visited in a visit of `p` is `p` or below it. -/
theorem visits_reach (d : DAG) (fuel : Nat) (caller : Option Vertex) (p : Vertex)
    (E : List Event) (h : events d fuel caller p = some E) :
    ∀ v ∈ visits E, Reach d p v := by
  refine events_induction d (fun _ p E => ∀ v ∈ visits E, Reach d p v)
    (fun p cs R => ∀ v ∈ visits R, ∃ c, c ∈ d.Visit p ∧ Reach d c v)
    ?_ ?_ ?_ fuel caller p E h
  · intro p v hv
    simp [visits] at hv
  · intro _ p c cs E R hc _ hP hQ v hv
    simp only [visits_append, visits, List.mem_append] at hv
    rcases hv with hv | hv
    · exact ⟨c, hc, hP v hv⟩
    · exact hQ v hv
  · intro caller p R hQ v hv
    simp only [visits, List.mem_cons] at hv
    rcases hv with rfl | hv
    · exact Reach.refl _
    · obtain ⟨c, hc, hr⟩ := hQ v hv
      exact Reach.step p c v hc hr

/-- Every vertex that is `p` or below it is visited in a visit of `p`. -/
theorem reach_visits (d : DAG) (fuel : Nat) (caller : Option Vertex) (p : Vertex)
    (E : List Event) (h : events d fuel caller p = some E) :
    ∀ v, Reach d p v → v ∈ visits E := by
  refine events_induction d (fun _ p E => ∀ v, Reach d p v → v ∈ visits E)
    (fun _ cs R => ∀ c ∈ cs, ∀ v, Reach d c v → v ∈ visits R)
    ?_ ?_ ?_ fuel caller p E h
  · intro p c hc
    simp at hc
  · intro _ p c cs E R _ _ hP hQ x hx v hv
    simp only [visits_append, visits, List.mem_append]
    rcases List.mem_cons.mp hx with rfl | hx
    · exact Or.inl (hP v hv)
    · exact Or.inr (hQ x hx v hv)
  · intro caller p R hQ v hv
    simp only [visits, List.mem_cons]
    cases hv with
    | refl _ => exact Or.inl rfl
    | step _ c _ hc hr => exact Or.inr (hQ c hc v hr)

/-- The calls of `writeEdge` in a visit are those for the children of the visited
vertices. -/
theorem mem_edge_iff (d : DAG) (fuel : Nat) (caller : Option Vertex) (p : Vertex)
    (E : List Event) (h : events d fuel caller p = some E) :
    ∀ a b, Event.edge a b ∈ E ↔ a ∈ visits E ∧ b ∈ d.Visit a := by
  refine events_induction d
    (fun _ _ E => ∀ a b, Event.edge a b ∈ E ↔ a ∈ visits E ∧ b ∈ d.Visit a)
    (fun p cs R => (∀ c ∈ cs, c ∈ d.Visit p) → ∀ a b, Event.edge a b ∈ R ↔
      (a = p ∧ b ∈ cs) ∨ (a ∈ visits R ∧ b ∈ d.Visit a))
    ?_ ?_ ?_ fuel caller p E h
  · intro p _ a b
    simp [visits]
  · intro _ p c cs E R _ _ hP hQ hsub a b
    have hQ1 := hQ (fun x hx => hsub x (List.mem_cons_of_mem _ hx)) a b
    simp only [List.mem_append, List.mem_cons, Event.edge.injEq, visits_append, visits,
      hP a b, hQ1]
    tauto
  · intro caller p R hQ a b
    have hQ1 := hQ (fun _ hc => hc) a b
    simp only [List.mem_cons, visits, hQ1]
    constructor
    · rintro (h | ⟨rfl, hb⟩ | ⟨ha, hb⟩)
      · cases h
      · exact ⟨Or.inl rfl, hb⟩
      · exact ⟨Or.inr ha, hb⟩
    · rintro ⟨rfl | ha, hb⟩
      · exact Or.inr (Or.inl ⟨rfl, hb⟩)
      · exact Or.inr (Or.inr ⟨ha, hb⟩)


/-- The number of invocations of `visit` on `v` within a visit of `p`: one if `v` is `p`,
and one for each occurrence of `v` among the children that an invocation enumerates. -/
theorem count_visits (d : DAG) (v : Vertex) (fuel : Nat) (caller : Option Vertex)
    (p : Vertex) (E : List Event) (h : events d fuel caller p = some E) :
    (visits E).count v =
      (if p = v then 1 else 0) + ((visits E).map fun q => (d.Visit q).count v).sum := by
  refine events_induction d
    (fun _ p E => (visits E).count v =
      (if p = v then 1 else 0) + ((visits E).map fun q => (d.Visit q).count v).sum)
    (fun _ cs R => (visits R).count v =
      cs.count v + ((visits R).map fun q => (d.Visit q).count v).sum)
    ?_ ?_ ?_ fuel caller p E h
  · intro _
    simp [visits]
  · intro _ p c cs E R _ _ hP hQ
    simp only [visits_append, visits, List.count_append, List.map_append, List.sum_append,
      hP, hQ, List.count_cons, beq_iff_eq]
    by_cases hc : c = v <;> simp [hc] <;> omega
  · intro caller p R hQ
    simp only [visits, List.count_cons, List.map_cons, List.sum_cons, hQ, beq_iff_eq]
    omega

theorem count_visits_eq_zero (d : DAG) (layer : Vertex → Nat)
    (hl : ∀ p c, c ∈ d.Visit p → layer c < layer p) (fuel : Nat) (caller : Option Vertex)
    (p c : Vertex) (hc : c ∈ d.Visit p) (E : List Event)
    (h : events d fuel caller c = some E) : (visits E).count p = 0 := by
  rw [List.count_eq_zero]
  intro hp
  have := Reach.layer_le layer hl (visits_reach d fuel caller c E h p hp)
  have := hl p c hc
  omega

/-- In a graph without cycle, the calls of `writeEdge` with parent `q` within a visit are
the children of `q`, in the order `Visit` yields them, once for each invocation of `visit`
on `q`. -/
theorem edgesFrom_events (d : DAG) (layer : Vertex → Nat)
    (hl : ∀ p c, c ∈ d.Visit p → layer c < layer p) (q : Vertex) (fuel : Nat)
    (caller : Option Vertex) (p : Vertex) (E : List Event)
    (h : events d fuel caller p = some E) :
    edgesFrom q E = copies ((visits E).count q) (d.Visit q) := by
  refine events_induction d
    (fun _ _ E => edgesFrom q E = copies ((visits E).count q) (d.Visit q))
    (fun p cs R => if p = q then edgesFrom q R = cs ∧ (visits R).count q = 0
      else edgesFrom q R = copies ((visits R).count q) (d.Visit q))
    ?_ ?_ ?_ fuel caller p E h
  · intro p
    split <;> simp [edgesFrom, visits, copies]
  · intro fuel p c cs E R hc hE hP hQ
    by_cases hpq : p = q
    · subst hpq
      rw [if_pos rfl] at hQ ⊢
      have h0 := count_visits_eq_zero d layer hl fuel (some p) p c hc E hE
      rw [h0] at hP
      simp [edgesFrom_append, edgesFrom, visits_append, visits, hP, hQ.1, hQ.2, h0, copies]
    · rw [if_neg hpq] at hQ ⊢
      simp [edgesFrom_append, edgesFrom, visits_append, visits, hP, hQ, hpq, copies_add]
  · intro caller p R hQ
    by_cases hpq : p = q
    · subst hpq
      rw [if_pos rfl] at hQ
      simp [edgesFrom, visits, hQ.1, hQ.2, copies]
    · rw [if_neg hpq] at hQ
      simp [edgesFrom, visits, hQ, hpq, List.count_cons]

/-- In a graph without cycle, the invocations of `visit` made from the callback of `q`
within a visit are on the children of `q`, in the order `Visit` yields them, once for each
invocation of `visit` on `q`. -/
theorem descents_events (d : DAG) (layer : Vertex → Nat)
    (hl : ∀ p c, c ∈ d.Visit p → layer c < layer p) (q : Vertex) (fuel : Nat)
    (caller : Option Vertex) (p : Vertex) (E : List Event)
    (h : events d fuel caller p = some E) :
    descents q E =
      (if caller = some q then [p] else []) ++ copies ((visits E).count q) (d.Visit q) := by
  refine events_induction d
    (fun caller p E => descents q E =
      (if caller = some q then [p] else []) ++ copies ((visits E).count q) (d.Visit q))
    (fun p cs R => if p = q then descents q R = cs ∧ (visits R).count q = 0
      else descents q R = copies ((visits R).count q) (d.Visit q))
    ?_ ?_ ?_ fuel caller p E h
  · intro p
    split <;> simp [descents, visits, copies]
  · intro fuel p c cs E R hc hE hP hQ
    by_cases hpq : p = q
    · subst hpq
      rw [if_pos rfl] at hQ ⊢
      have h0 := count_visits_eq_zero d layer hl fuel (some p) p c hc E hE
      rw [h0] at hP
      simp [descents_append, descents, visits_append, visits, hP, hQ.1, hQ.2, h0, copies]
    · rw [if_neg hpq] at hQ ⊢
      have hne : ¬ (some p = some q) := fun e => hpq (Option.some.inj e)
      rw [if_neg hne] at hP
      simp [descents_append, descents, visits_append, visits, hP, hQ, copies_add]
  · intro caller p R hQ
    by_cases hpq : p = q
    · subst hpq
      rw [if_pos rfl] at hQ
      by_cases hc : caller = some p <;> simp [descents, visits, hQ.1, hQ.2, copies, hc]
    · rw [if_neg hpq] at hQ
      by_cases hc : caller = some q <;> simp [descents, visits, hQ, hpq, hc, List.count_cons]

/-! ## Enough depth -/

theorem eventsOfChildren_mono (f g : Vertex → Option (List Event)) (p : Vertex)
    (cs : List Vertex) (hfg : ∀ c, c ∈ cs → ∀ E, f c = some E → g c = some E) (R : List Event)
    (h : eventsOfChildren f p cs = some R) : eventsOfChildren g p cs = some R := by
  induction cs generalizing R with
  | nil => simpa [eventsOfChildren] using h
  | cons c cs ih =>
    obtain ⟨E, R1, hE, hR1, rfl⟩ := (eventsOfChildren_cons f p c cs R).mp h
    exact (eventsOfChildren_cons g p c cs _).mpr
      ⟨E, R1, hfg c (List.mem_cons_self _ _) E hE,
        ih (fun x hx => hfg x (List.mem_cons_of_mem _ hx)) R1 hR1, rfl⟩

theorem events_mono_succ (d : DAG) (fuel : Nat) (caller : Option Vertex) (p : Vertex)
    (E : List Event) (h : events d fuel caller p = some E) :
    events d (fuel + 1) caller p = some E := by
  induction fuel generalizing caller p E with
  | zero => simp [events] at h
  | succ fuel ih =>
    obtain ⟨R, hR, rfl⟩ := (events_succ d fuel caller p E).mp h
    exact (events_succ d (fuel + 1) caller p _).mpr
      ⟨R, eventsOfChildren_mono _ _ p _ (fun c _ E hE => ih (some p) c E hE) R hR, rfl⟩

theorem events_mono (d : DAG) (fuel fuel1 : Nat) (hle : fuel ≤ fuel1)
    (caller : Option Vertex) (p : Vertex) (E : List Event)
    (h : events d fuel caller p = some E) : events d fuel1 caller p = some E := by
  induction hle with
  | refl => exact h
  | step _ ih => exact events_mono_succ d _ caller p E ih

theorem events_isSome (d : DAG) (layer : Vertex → Nat)
    (hl : ∀ p c, c ∈ d.Visit p → layer c < layer p) (fuel : Nat) (caller : Option Vertex)
    (p : Vertex) (h : layer p < fuel) : ∃ E, events d fuel caller p = some E := by
  induction fuel generalizing caller p with
  | zero => omega
  | succ fuel ih =>
    have loop : ∀ cs : List Vertex, (∀ c ∈ cs, c ∈ d.Visit p) →
        ∃ R, eventsOfChildren (events d fuel (some p)) p cs = some R := by
      intro cs
      induction cs with
      | nil => exact fun _ => ⟨[], rfl⟩
      | cons c cs ihc =>
        intro hmem
        have hc := hl p c (hmem c (List.mem_cons_self _ _))
        obtain ⟨E, hE⟩ := ih (some p) c (by omega)
        obtain ⟨R, hR⟩ := ihc (fun x hx => hmem x (List.mem_cons_of_mem _ hx))
        exact ⟨_, (eventsOfChildren_cons _ p c cs _).mpr ⟨E, R, hE, hR, rfl⟩⟩
    obtain ⟨R, hR⟩ := loop (d.Visit p) (fun _ hc => hc)
    exact ⟨_, (events_succ d fuel caller p _).mpr ⟨R, hR, rfl⟩⟩

theorem eventsOfRoots_cons (d : DAG) (fuel : Nat) (r : Vertex) (rs : List Vertex)
    (R : List Event) :
    eventsOfRoots d fuel (r :: rs) = some R ↔
      ∃ E R1, events d fuel none r = some E ∧ eventsOfRoots d fuel rs = some R1 ∧
        R = E ++ R1 := by
  simp only [eventsOfRoots]
  cases events d fuel none r with
  | none => simp
  | some E =>
    cases eventsOfRoots d fuel rs with
    | none => simp
    | some R1 => simp [eq_comm]

/-- On a graph without cycle the walk of the roots returns, and with the same calls, from
some depth on. -/
theorem eventsOfRoots_isSome (d : DAG) (layer : Vertex → Nat)
    (hl : ∀ p c, c ∈ d.Visit p → layer c < layer p) (rs : List Vertex) :
    ∃ n E, ∀ fuel, n ≤ fuel → eventsOfRoots d fuel rs = some E := by
  induction rs with
  | nil => exact ⟨0, [], fun _ _ => rfl⟩
  | cons r rs ih =>
    obtain ⟨n, R, hR⟩ := ih
    obtain ⟨E, hE⟩ := events_isSome d layer hl (layer r + 1) none r (Nat.lt_succ_self _)
    refine ⟨max n (layer r + 1), E ++ R, fun fuel hf => ?_⟩
    exact (eventsOfRoots_cons d fuel r rs _).mpr
      ⟨E, R, events_mono d _ fuel (le_trans (le_max_right _ _) hf) none r E hE,
        hR fuel (le_trans (le_max_left _ _) hf), rfl⟩


/-! ## The calls of the whole walk -/

theorem mem_visits_roots (d : DAG) (fuel : Nat) (rs : List Vertex) (R : List Event)
    (h : eventsOfRoots d fuel rs = some R) (v : Vertex) :
    v ∈ visits R ↔ ∃ r, r ∈ rs ∧ Reach d r v := by
  induction rs generalizing R with
  | nil =>
    simp only [eventsOfRoots, Option.some.injEq] at h
    simp [← h, visits]
  | cons r rs ih =>
    obtain ⟨E, R1, hE, hR1, rfl⟩ := (eventsOfRoots_cons d fuel r rs R).mp h
    simp only [visits_append, List.mem_append, ih R1 hR1, List.mem_cons]
    constructor
    · rintro (hv | ⟨x, hx, hr⟩)
      · exact ⟨r, Or.inl rfl, visits_reach d fuel none r E hE v hv⟩
      · exact ⟨x, Or.inr hx, hr⟩
    · rintro ⟨x, rfl | hx, hr⟩
      · exact Or.inl (reach_visits d fuel none x E hE v hr)
      · exact Or.inr ⟨x, hx, hr⟩

theorem mem_edge_roots (d : DAG) (fuel : Nat) (rs : List Vertex) (R : List Event)
    (h : eventsOfRoots d fuel rs = some R) (a b : Vertex) :
    Event.edge a b ∈ R ↔ a ∈ visits R ∧ b ∈ d.Visit a := by
  induction rs generalizing R with
  | nil =>
    simp only [eventsOfRoots, Option.some.injEq] at h
    simp [← h, visits]
  | cons r rs ih =>
    obtain ⟨E, R1, hE, hR1, rfl⟩ := (eventsOfRoots_cons d fuel r rs R).mp h
    simp only [visits_append, List.mem_append, ih R1 hR1, mem_edge_iff d fuel none r E hE]
    tauto

theorem count_visits_roots (d : DAG) (v : Vertex) (fuel : Nat) (rs : List Vertex)
    (R : List Event) (h : eventsOfRoots d fuel rs = some R) :
    (visits R).count v =
      rs.count v + ((visits R).map fun q => (d.Visit q).count v).sum := by
  induction rs generalizing R with
  | nil =>
    simp only [eventsOfRoots, Option.some.injEq] at h
    simp [← h, visits]
  | cons r rs ih =>
    obtain ⟨E, R1, hE, hR1, rfl⟩ := (eventsOfRoots_cons d fuel r rs R).mp h
    simp only [visits_append, List.count_append, List.map_append, List.sum_append,
      ih R1 hR1, count_visits d v fuel none r E hE, List.count_cons, beq_iff_eq]
    omega

theorem edgesFrom_roots (d : DAG) (layer : Vertex → Nat)
    (hl : ∀ p c, c ∈ d.Visit p → layer c < layer p) (q : Vertex) (fuel : Nat)
    (rs : List Vertex) (R : List Event) (h : eventsOfRoots d fuel rs = some R) :
    edgesFrom q R = copies ((visits R).count q) (d.Visit q) := by
  induction rs generalizing R with
  | nil =>
    simp only [eventsOfRoots, Option.some.injEq] at h
    simp [← h, visits, edgesFrom, copies]
  | cons r rs ih =>
    obtain ⟨E, R1, hE, hR1, rfl⟩ := (eventsOfRoots_cons d fuel r rs R).mp h
    rw [edgesFrom_append, visits_append, List.count_append, copies_add, ih R1 hR1,
      edgesFrom_events d layer hl q fuel none r E hE]

theorem descents_roots (d : DAG) (layer : Vertex → Nat)
    (hl : ∀ p c, c ∈ d.Visit p → layer c < layer p) (q : Vertex) (fuel : Nat)
    (rs : List Vertex) (R : List Event) (h : eventsOfRoots d fuel rs = some R) :
    descents q R = copies ((visits R).count q) (d.Visit q) := by
  induction rs generalizing R with
  | nil =>
    simp only [eventsOfRoots, Option.some.injEq] at h
    simp [← h, visits, descents, copies]
  | cons r rs ih =>
    obtain ⟨E, R1, hE, hR1, rfl⟩ := (eventsOfRoots_cons d fuel r rs R).mp h
    rw [descents_append, visits_append, List.count_append, copies_add, ih R1 hR1,
      descents_events d layer hl q fuel none r E hE]
    simp

/-! ## The lines of the whole walk -/

theorem mem_copies (n : Nat) (xs : List Vertex) (x : Vertex) (h : x ∈ copies n xs) :
    x ∈ xs := by
  induction n with
  | zero => simp [copies] at h
  | succ n ih =>
    simp only [copies, List.mem_append] at h
    exact h.elim id ih

theorem node_mem_lines (d : DAG) (E : List Event) (v : Vertex) (k : VertexKind) :
    Line.node v k ∈ E.map (Event.line d) ↔ v ∈ visits E ∧ k = d.kind v := by
  induction E with
  | nil => simp [visits]
  | cons e es ih =>
    cases e with
    | visit c u =>
      simp only [List.map_cons, List.mem_cons, ih, Event.line, visits, Line.node.injEq]
      constructor
      · rintro (⟨rfl, rfl⟩ | ⟨h1, h2⟩)
        · exact ⟨Or.inl rfl, rfl⟩
        · exact ⟨Or.inr h1, h2⟩
      · rintro ⟨rfl | h1, h2⟩
        · exact Or.inl ⟨rfl, h2⟩
        · exact Or.inr ⟨h1, h2⟩
    | edge a b => simp [Event.line, visits, ih]

theorem edge_mem_lines (d : DAG) (E : List Event) (a b : Vertex) :
    Line.edge a b ∈ E.map (Event.line d) ↔ Event.edge a b ∈ E := by
  induction E with
  | nil => simp
  | cons e es ih =>
    cases e with
    | visit c u => simp [Event.line, ih]
    | edge x y => simp [Event.line, ih]

theorem filter_isEdgeFrom_lines (d : DAG) (p : Vertex) (E : List Event) :
    (E.map (Event.line d)).filter (Line.isEdgeFrom p) = (edgesFrom p E).map (Line.edge p) := by
  induction E with
  | nil => rfl
  | cons e es ih =>
    cases e with
    | visit c u => simp [Event.line, Line.isEdgeFrom, edgesFrom, ih]
    | edge a b =>
      by_cases h : a = p
      · subst h
        simp [Event.line, Line.isEdgeFrom, edgesFrom, ih]
      · simp [Event.line, Line.isEdgeFrom, edgesFrom, ih, h]

/-- The result of `writeDot` on a graph without cycle: it returns from some depth on, and
what it has written is the opening line, the first occurrences of the lines of its calls,
and the closing line. -/
theorem writeDot_acyclic (d : DAG) (layer : Vertex → Nat)
    (hl : ∀ p c, c ∈ d.Visit p → layer c < layer p) :
    ∃ s E, (∃ n, ∀ fuel, n ≤ fuel →
        writeDot d fuel = some s ∧ eventsOfRoots d fuel d.roots = some E) ∧
      s.log = E ∧
      s.c.w = (E.map (Event.line d)).foldl appendNew [Line.header] ++ [Line.footer] := by
  obtain ⟨n, E, hE⟩ := eventsOfRoots_isSome d layer hl d.roots
  have hinv : (⟨[Line.header], ∅, ∅⟩ : ctx).Inv d := by
    constructor <;> intros <;> simp
  refine ⟨⟨{ E.foldl (ctx.step d) ⟨[Line.header], ∅, ∅⟩ with
      w := (E.foldl (ctx.step d) ⟨[Line.header], ∅, ∅⟩).w ++ [Line.footer] }, E⟩, E,
    ⟨n, fun fuel hf => ⟨?_, hE fuel hf⟩⟩, rfl, ?_⟩
  · rw [writeDot_eq, hE fuel hf]
    rfl
  · simp only
    rw [foldl_step_w d E _ hinv]

theorem nodup_output (L : List Line) (h2 : Line.footer ∉ L) :
    (L.foldl appendNew [Line.header] ++ [Line.footer]).Nodup := by
  apply List.Nodup.append (nodup_foldl_appendNew L _ (List.nodup_singleton _))
    (List.nodup_singleton _)
  intro l hl hf
  rw [mem_foldl_appendNew] at hl
  simp only [List.mem_singleton] at hl hf
  subst hf
  rcases hl with hl | hl
  · cases hl
  · exact h2 hl

theorem header_not_mem_lines (d : DAG) (E : List Event) :
    Line.header ∉ E.map (Event.line d) ∧ Line.footer ∉ E.map (Event.line d) := by
  induction E with
  | nil => simp
  | cons e es ih => cases e <;> simp [Event.line, ih.1, ih.2]


/-! ## Claims about the exporter's walk -/

theorem sharedCluster_acyclic : Acyclic sharedCluster := by
  refine ⟨fun v => 6 - v, fun p c hc => ?_⟩
  rcases p with _ | _ | _ | _ | _ | p <;> simp [sharedCluster] at hc
  · subst hc; decide
  · rcases hc with rfl | rfl <;> decide
  · subst hc; decide
  · subst hc; decide
  · subst hc; decide

theorem reachable_iff_visited (d : DAG) (fuel : Nat) (E : List Event)
    (h : eventsOfRoots d fuel d.roots = some E) (v : Vertex) :
    v ∈ visits E ↔ Reachable d v :=
  mem_visits_roots d fuel d.roots E h v

/-- What the output of the walk of a graph without cycle holds, line by line. -/
theorem output_lines (d : DAG) (hd : Acyclic d) :
    ∃ s, (∃ n, ∀ fuel, n ≤ fuel → writeDot d fuel = some s) ∧ s.c.w.Nodup ∧
      (∀ v k, Line.node v k ∈ s.c.w ↔ k = d.kind v ∧ Reachable d v) ∧
      (∀ p c, Line.edge p c ∈ s.c.w ↔ Reachable d p ∧ c ∈ d.Visit p) := by
  obtain ⟨layer, hl⟩ := hd
  obtain ⟨s, E, ⟨n, hn⟩, hlog, hw⟩ := writeDot_acyclic d layer hl
  have hE := (hn n (Nat.le_refl _)).2
  refine ⟨s, ⟨n, fun fuel hf => (hn fuel hf).1⟩, ?_, fun v k => ?_, fun p c => ?_⟩
  · rw [hw]
    exact nodup_output _ (header_not_mem_lines d E).2
  · rw [hw]
    simp only [List.mem_append, mem_foldl_appendNew, List.mem_singleton, node_mem_lines,
      reachable_iff_visited d n E hE]
    constructor
    · rintro ((h | h) | h)
      · cases h
      · exact ⟨h.2, h.1⟩
      · cases h
    · rintro ⟨h1, h2⟩
      exact Or.inl (Or.inr ⟨h2, h1⟩)
  · rw [hw]
    simp only [List.mem_append, mem_foldl_appendNew, List.mem_singleton, edge_mem_lines,
      mem_edge_roots d n d.roots E hE, reachable_iff_visited d n E hE]
    constructor
    · rintro ((h | h) | h)
      · cases h
      · exact h
      · cases h
    · intro h
      exact Or.inl (Or.inr h)

/-- C13. Traversal dedup by identity: on every finite graph without cycle the walk of
`writeDot` returns, writes the record of a vertex exactly once for each vertex reachable
from the roots and for no other, and writes an edge exactly once for each pair of a
reachable parent and one of its children and for no other; in particular a vertex that
exactly two distinct reachable parents reference is written once and has exactly two edges
into it. -/
theorem traversal_dedup (d : DAG) (hd : Acyclic d) :
    ∃ s, (∃ n, ∀ fuel, n ≤ fuel → writeDot d fuel = some s) ∧
      (∀ v k, Line.node v k ∈ s.c.w → k = d.kind v ∧ Reachable d v) ∧
      (∀ v, Reachable d v → s.c.w.count (Line.node v (d.kind v)) = 1) ∧
      (∀ p c, Line.edge p c ∈ s.c.w → Reachable d p ∧ c ∈ d.Visit p) ∧
      (∀ p c, Reachable d p → c ∈ d.Visit p → s.c.w.count (Line.edge p c) = 1) ∧
      (∀ r1 r2 c, r1 ≠ r2 → Reachable d r1 → Reachable d r2 →
        c ∈ d.Visit r1 → c ∈ d.Visit r2 →
        (∀ p, Reachable d p → c ∈ d.Visit p → p = r1 ∨ p = r2) →
        s.c.w.count (Line.node c (d.kind c)) = 1 ∧
          (s.c.w.filter (Line.isEdgeInto c)).length = 2) := by
  obtain ⟨s, hs, hnd, hnode, hedge⟩ := output_lines d hd
  have hnode1 : ∀ v, Reachable d v → s.c.w.count (Line.node v (d.kind v)) = 1 :=
    fun v hv => List.count_eq_one_of_mem hnd ((hnode v _).mpr ⟨rfl, hv⟩)
  refine ⟨s, hs, fun v k h => (hnode v k).mp h, hnode1, fun p c h => (hedge p c).mp h,
    fun p c hp hc => List.count_eq_one_of_mem hnd ((hedge p c).mpr ⟨hp, hc⟩), ?_⟩
  intro r1 r2 c hne hr1 hr2 hc1 hc2 honly
  obtain ⟨r, hr, hreach⟩ := hr1
  refine ⟨hnode1 c ⟨r, hr, hreach.trans (Reach.step r1 c c hc1 (Reach.refl c))⟩, ?_⟩
  have hnd2 : (s.c.w.filter (Line.isEdgeInto c)).Nodup := hnd.filter _
  rw [← List.toFinset_card_of_nodup hnd2]
  have hset : (s.c.w.filter (Line.isEdgeInto c)).toFinset =
      {Line.edge r1 c, Line.edge r2 c} := by
    ext l
    simp only [List.mem_toFinset, List.mem_filter, Finset.mem_insert, Finset.mem_singleton]
    constructor
    · rintro ⟨hl, hinto⟩
      cases l with
      | edge a b =>
        simp only [Line.isEdgeInto, decide_eq_true_eq] at hinto
        subst hinto
        obtain ⟨ha, hb⟩ := (hedge a b).mp hl
        rcases honly a ha hb with rfl | rfl
        · exact Or.inl rfl
        · exact Or.inr rfl
      | header => simp [Line.isEdgeInto] at hinto
      | footer => simp [Line.isEdgeInto] at hinto
      | node _ _ => simp [Line.isEdgeInto] at hinto
    · rintro (rfl | rfl)
      · exact ⟨(hedge r1 c).mpr ⟨⟨r, hr, hreach⟩, hc1⟩, by simp [Line.isEdgeInto]⟩
      · exact ⟨(hedge r2 c).mpr ⟨hr2, hc2⟩, by simp [Line.isEdgeInto]⟩
  rw [hset]
  exact Finset.card_pair (by simpa using hne)

theorem traversal_dedup_witness :
    ∃ s, (∃ n, ∀ fuel, n ≤ fuel → writeDot sharedCluster fuel = some s) ∧
      (∀ v k, Line.node v k ∈ s.c.w → k = sharedCluster.kind v ∧ Reachable sharedCluster v) ∧
      (∀ v, Reachable sharedCluster v →
        s.c.w.count (Line.node v (sharedCluster.kind v)) = 1) ∧
      (∀ p c, Line.edge p c ∈ s.c.w → Reachable sharedCluster p ∧ c ∈ sharedCluster.Visit p) ∧
      (∀ p c, Reachable sharedCluster p → c ∈ sharedCluster.Visit p →
        s.c.w.count (Line.edge p c) = 1) ∧
      (∀ r1 r2 c, r1 ≠ r2 → Reachable sharedCluster r1 → Reachable sharedCluster r2 →
        c ∈ sharedCluster.Visit r1 → c ∈ sharedCluster.Visit r2 →
        (∀ p, Reachable sharedCluster p → c ∈ sharedCluster.Visit p → p = r1 ∨ p = r2) →
        s.c.w.count (Line.node c (sharedCluster.kind c)) = 1 ∧
          (s.c.w.filter (Line.isEdgeInto c)).length = 2) :=
  traversal_dedup sharedCluster sharedCluster_acyclic

theorem no_reexpansion_counterexample :
    (writeDot sharedCluster 6).map (fun s =>
      ((visits s.log).count 4, s.c.w.count (Line.node 4 .Cluster))) = some (2, 1) := by
  decide


/-- C14, as amended. The walk tracks the identity of the vertices it has written, not of
those it has visited: on every finite graph without cycle the walk returns and the record
of each vertex is written at most once, however many parents reference it, while its
children are enumerated once for each invocation of `visit` on it, that is once for each
occurrence of the vertex among the roots and once for each occurrence of it among the
children that an invocation of `visit` on a parent enumerates. -/
theorem written_once_visited_per_reference (d : DAG) (hd : Acyclic d) :
    ∃ s, (∃ n, ∀ fuel, n ≤ fuel → writeDot d fuel = some s) ∧
      ∀ v, s.c.w.count (Line.node v (d.kind v)) ≤ 1 ∧
        (visits s.log).count v =
          d.roots.count v + ((visits s.log).map fun q => (d.Visit q).count v).sum := by
  obtain ⟨layer, hl⟩ := hd
  obtain ⟨s, E, ⟨n, hn⟩, hlog, hw⟩ := writeDot_acyclic d layer hl
  have hE := (hn n (Nat.le_refl _)).2
  refine ⟨s, ⟨n, fun fuel hf => (hn fuel hf).1⟩, fun v => ⟨?_, ?_⟩⟩
  · rw [hw]
    exact List.nodup_iff_count_le_one.mp (nodup_output _ (header_not_mem_lines d E).2) _
  · rw [hlog]
    exact count_visits_roots d v n d.roots E hE

theorem written_once_visited_per_reference_witness :
    ∃ s, (∃ n, ∀ fuel, n ≤ fuel → writeDot sharedCluster fuel = some s) ∧
      ∀ v, s.c.w.count (Line.node v (sharedCluster.kind v)) ≤ 1 ∧
        (visits s.log).count v =
          sharedCluster.roots.count v +
            ((visits s.log).map fun q => (sharedCluster.Visit q).count v).sum :=
  written_once_visited_per_reference sharedCluster sharedCluster_acyclic

theorem events_selfLoop (fuel : Nat) (caller : Option Vertex) :
    events selfLoop fuel caller 0 = none := by
  induction fuel generalizing caller with
  | zero => rfl
  | succ fuel ih =>
    have hv : selfLoop.Visit 0 = [0] := rfl
    simp only [events, hv, eventsOfChildren, ih, Option.bind_eq_bind, Option.none_bind,
      Option.map_none']

theorem cycle_safety_counterexample : ¬ ∃ fuel s, writeDot selfLoop fuel = some s := by
  rintro ⟨fuel, s, h⟩
  have hr : selfLoop.roots = [0] := rfl
  rw [writeDot_eq, hr] at h
  simp only [eventsOfRoots, events_selfLoop, Option.bind_eq_bind, Option.none_bind,
    Option.map_none'] at h
  cases h

theorem eventsOfRoots_of_layer (d : DAG) (layer : Vertex → Nat)
    (hl : ∀ p c, c ∈ d.Visit p → layer c < layer p) (fuel : Nat) (rs : List Vertex)
    (hf : ∀ r, r ∈ rs → layer r < fuel) : ∃ E, eventsOfRoots d fuel rs = some E := by
  induction rs with
  | nil => exact ⟨[], rfl⟩
  | cons r rs ih =>
    obtain ⟨E, hE⟩ := events_isSome d layer hl fuel none r (hf r (List.mem_cons_self _ _))
    obtain ⟨R, hR⟩ := ih (fun x hx => hf x (List.mem_cons_of_mem _ hx))
    exact ⟨E ++ R, (eventsOfRoots_cons d fuel r rs _).mpr ⟨E, R, hE, hR, rfl⟩⟩

theorem eventsOfRoots_mono (d : DAG) (fuel fuel1 : Nat) (hle : fuel ≤ fuel1)
    (rs : List Vertex) (E : List Event) (h : eventsOfRoots d fuel rs = some E) :
    eventsOfRoots d fuel1 rs = some E := by
  induction rs generalizing E with
  | nil => simpa [eventsOfRoots] using h
  | cons r rs ih =>
    obtain ⟨E1, R1, hE1, hR1, rfl⟩ := (eventsOfRoots_cons d fuel r rs E).mp h
    exact (eventsOfRoots_cons d fuel1 r rs _).mpr
      ⟨E1, R1, events_mono d fuel fuel1 hle none r E1 hE1, ih R1 hR1, rfl⟩

theorem eventsOfChildren_none (f : Vertex → Option (List Event)) (p : Vertex)
    (cs : List Vertex) (c : Vertex) (hc : c ∈ cs) (h : f c = none) :
    eventsOfChildren f p cs = none := by
  induction cs with
  | nil => simp at hc
  | cons x xs ih =>
    rcases List.mem_cons.mp hc with rfl | hx
    · simp [eventsOfChildren, h]
    · simp only [eventsOfChildren, ih hx, Option.map_none', Option.bind_eq_bind]
      cases f x <;> rfl

/-- A visit of a vertex that is reached from one of its own children never returns. -/
theorem events_none_of_cycle (d : DAG) (fuel : Nat) (v : Vertex)
    (h : ∃ c, c ∈ d.Visit v ∧ Reach d c v) (caller : Option Vertex) :
    events d fuel caller v = none := by
  induction fuel generalizing v caller with
  | zero => rfl
  | succ fuel ih =>
    obtain ⟨c, hc, hr⟩ := h
    have hcyc : ∃ c1, c1 ∈ d.Visit c ∧ Reach d c1 c := by
      cases hr with
      | refl _ => exact ⟨_, hc, Reach.refl _⟩
      | step _ c1 _ hc1 hr1 =>
        exact ⟨c1, hc1, hr1.trans (Reach.step v c c hc (Reach.refl c))⟩
    simp only [events, eventsOfChildren_none _ v _ c hc (ih c hcyc (some v)),
      Option.map_none']

theorem events_none_of_reach (d : DAG) (r v : Vertex) (hr : Reach d r v)
    (h : ∃ c, c ∈ d.Visit v ∧ Reach d c v) (fuel : Nat) (caller : Option Vertex) :
    events d fuel caller r = none := by
  induction hr generalizing fuel caller with
  | refl _ => exact events_none_of_cycle d fuel _ h caller
  | step p c _ hc _ ih =>
    cases fuel with
    | zero => rfl
    | succ fuel =>
      simp only [events, eventsOfChildren_none _ p _ c hc (ih h fuel (some p)),
        Option.map_none']

theorem eventsOfRoots_none (d : DAG) (fuel : Nat) (rs : List Vertex) (r : Vertex)
    (hr : r ∈ rs) (h : events d fuel none r = none) : eventsOfRoots d fuel rs = none := by
  induction rs with
  | nil => simp at hr
  | cons x xs ih =>
    rcases List.mem_cons.mp hr with rfl | hx
    · simp [eventsOfRoots, h]
    · simp only [eventsOfRoots, ih hx, Option.map_none', Option.bind_eq_bind]
      cases events d fuel none x <;> rfl

/-- C15, as amended. Termination rests on the graph having no cycle, not on the record of
visited vertices: on every finite graph that has a layering, every child in a layer below
its parent, the walk returns as soon as the depth allowed to the recursion exceeds the
layer of every root, and returns the same result for every greater depth; and on a graph
where a vertex reachable from the roots is reached from one of its own children, the walk
returns for no depth. -/
theorem walk_terminates_without_cycle (d : DAG) :
    (∀ layer : Vertex → Nat, (∀ p c, c ∈ d.Visit p → layer c < layer p) →
      ∀ fuel, (∀ r, r ∈ d.roots → layer r < fuel) →
        ∃ s, ∀ fuel1, fuel ≤ fuel1 → writeDot d fuel1 = some s) ∧
    (∀ v c, Reachable d v → c ∈ d.Visit v → Reach d c v →
      ∀ fuel, writeDot d fuel = none) := by
  constructor
  · intro layer hl fuel hf
    obtain ⟨E, hE⟩ := eventsOfRoots_of_layer d layer hl fuel d.roots hf
    refine ⟨⟨{ E.foldl (ctx.step d) ⟨[Line.header], ∅, ∅⟩ with
        w := (E.foldl (ctx.step d) ⟨[Line.header], ∅, ∅⟩).w ++ [Line.footer] }, E⟩,
      fun fuel1 hle => ?_⟩
    rw [writeDot_eq, eventsOfRoots_mono d fuel fuel1 hle d.roots E hE]
    rfl
  · rintro v c ⟨r, hr, hreach⟩ hc hcv fuel
    rw [writeDot_eq, eventsOfRoots_none d fuel d.roots r hr
      (events_none_of_reach d r v hreach ⟨c, hc, hcv⟩ fuel none)]
    rfl

theorem walk_terminates_without_cycle_witness :
    (∃ s, ∀ fuel1, 7 ≤ fuel1 → writeDot sharedCluster fuel1 = some s) ∧
    (∀ fuel, writeDot selfLoop fuel = none) :=
  ⟨(walk_terminates_without_cycle sharedCluster).1 (fun v => 6 - v)
      (by
        intro p c hc
        rcases p with _ | _ | _ | _ | _ | p <;> simp [sharedCluster] at hc
        · subst hc; decide
        · rcases hc with rfl | rfl <;> decide
        · subst hc; decide
        · subst hc; decide
        · subst hc; decide)
      7 (by intro r hr; simp [sharedCluster] at hr; subst hr; decide),
   (walk_terminates_without_cycle selfLoop).2 0 0
      ⟨0, List.mem_singleton.mpr rfl, Reach.refl 0⟩ (List.mem_singleton.mpr rfl)
      (Reach.refl 0)⟩

theorem firstOccurrences_example : firstOccurrences [2, 3, 2, 4, 3, 2] = [2, 3, 4] := by
  decide

theorem foldl_appendNew_copies (p : Vertex) (xs : List Vertex) (n : Nat) :
    ((copies (n + 1) xs).map (Line.edge p)).foldl appendNew [] =
      (firstOccurrences xs).map (Line.edge p) := by
  rw [copies, List.map_append, List.foldl_append]
  rw [foldl_appendNew_of_subset]
  · rw [foldl_appendNew_edges]
    simp
  · intro l hl
    rw [mem_foldl_appendNew]
    right
    obtain ⟨x, hx, rfl⟩ := List.mem_map.mp hl
    exact List.mem_map.mpr ⟨x, mem_copies n xs x hx, rfl⟩

/-- C17. Per-parent child order: on every finite graph without cycle the walk returns,
and for every vertex `p` it reaches, the invocations of `visit` it makes from the callback
of `p` are on the children of `p` in exactly the order `Visit` yields them, once through
for each invocation of `visit` on `p`, and the edges out of `p` stand in the output in the
order of the first occurrence of each child in what `Visit` yields. -/
theorem per_parent_child_order (d : DAG) (hd : Acyclic d) :
    ∃ s, (∃ n, ∀ fuel, n ≤ fuel → writeDot d fuel = some s) ∧
      ∀ p, Reachable d p →
        1 ≤ (visits s.log).count p ∧
        descents p s.log = copies ((visits s.log).count p) (d.Visit p) ∧
        s.c.w.filter (Line.isEdgeFrom p) =
          (firstOccurrences (d.Visit p)).map (Line.edge p) := by
  obtain ⟨layer, hl⟩ := hd
  obtain ⟨s, E, ⟨n, hn⟩, hlog, hw⟩ := writeDot_acyclic d layer hl
  have hE := (hn n (Nat.le_refl _)).2
  refine ⟨s, ⟨n, fun fuel hf => (hn fuel hf).1⟩, fun p hp => ?_⟩
  have hcount : 1 ≤ (visits E).count p :=
    List.count_pos_iff.mpr ((reachable_iff_visited d n E hE p).mpr hp)
  refine ⟨by rw [hlog]; exact hcount, ?_, ?_⟩
  · rw [hlog]
    exact descents_roots d layer hl p n d.roots E hE
  · rw [hw, List.filter_append, filter_foldl_appendNew, filter_isEdgeFrom_lines,
      edgesFrom_roots d layer hl p n d.roots E hE]
    obtain ⟨m, hm⟩ := Nat.exists_eq_add_of_le hcount
    rw [hm, Nat.add_comm, show List.filter (Line.isEdgeFrom p) [Line.header] = [] from rfl,
      foldl_appendNew_copies]
    simp [Line.isEdgeFrom]

theorem per_parent_child_order_witness :
    ∃ s, (∃ n, ∀ fuel, n ≤ fuel → writeDot sharedCluster fuel = some s) ∧
      ∀ p, Reachable sharedCluster p →
        1 ≤ (visits s.log).count p ∧
        descents p s.log = copies ((visits s.log).count p) (sharedCluster.Visit p) ∧
        s.c.w.filter (Line.isEdgeFrom p) =
          (firstOccurrences (sharedCluster.Visit p)).map (Line.edge p) :=
  per_parent_child_order sharedCluster sharedCluster_acyclic

end Debug
